import Mathlib

/-!
# go-scraper: extraction, classification and the depth-bounded crawl controller

A shallow embedding of `pkg/scraper/scraper.go`.

* Text is a list of code points (`List Char`).
* The regular expressions of the source are values of `Regex`; the matcher
  `Regex.ends` lists the ends of all matches that start at a position in the
  priority order of a backtracking (leftmost-first) matcher, which is the
  order Go's `regexp` package documents for its `Find*` functions.
* `tlds.TLDS` (package `tlds`, not part of the sources at hand) is a parameter
  `TLDS : List Char → Bool`.
* Logging is observational and is left out.
-/

namespace GoScraper

/-! ## Regular expressions -/

/-- Abstract syntax of the regular expressions the program uses. -/
inductive Regex where
  /-- matches the empty string -/
  | empty : Regex
  /-- one character inside (`neg = false`) or outside (`neg = true`) the ranges -/
  | cls (neg : Bool) (ranges : List (Char × Char)) : Regex
  /-- `^`: beginning of text -/
  | bot : Regex
  /-- `$`: end of text -/
  | eot : Regex
  | cat : Regex → Regex → Regex
  /-- alternation, the left branch is preferred -/
  | alt : Regex → Regex → Regex
  /-- greedy iteration -/
  | star : Regex → Regex
  deriving DecidableEq

namespace Regex

/-- The literal character `c`. -/
def lit (c : Char) : Regex := cls false [(c, c)]

/-- Pattern `.`: any character but the line feed. -/
def dot : Regex := cls true [(Char.ofNat 10, Char.ofNat 10)]

/-- Greedy `x+`. -/
def plus (r : Regex) : Regex := cat r (star r)

/-- Greedy `x?`. -/
def opt (r : Regex) : Regex := alt r empty

/-- Concatenation of a sequence of items. -/
def concatOf : List Regex → Regex
  | [] => empty
  | [r] => r
  | r :: r2 :: rs => cat r (concatOf (r2 :: rs))

/-- Alternation of a sequence of branches, earlier branches preferred. -/
def altOf : List Regex → Regex
  | [] => empty
  | [r] => r
  | r :: r2 :: rs => alt r (altOf (r2 :: rs))

/-- The literal string `w`. -/
def str (w : List Char) : Regex := concatOf (w.map lit)

/-- The nested options `(x(x(x)?)?)?` with `k` copies of `x`. -/
def optChain (r : Regex) : Nat → Regex
  | 0 => empty
  | 1 => opt r
  | k + 2 => opt (cat r (optChain r (k + 1)))

/-- Counted repetition `x{min,max}` (`max = none` for `x{min,}`), expanded the
way the library simplifies it: `min` copies, then the optional ones. -/
def repeatOf (r : Regex) (min : Nat) (max : Option Nat) : Regex :=
  match max with
  | none => concatOf (List.replicate min r ++ [star r])
  | some m =>
    if m ≤ min then concatOf (List.replicate min r)
    else concatOf (List.replicate min r ++ [optChain r (m - min)])

/-- Membership of a character in a class. -/
def inClass (neg : Bool) (ranges : List (Char × Char)) (c : Char) : Bool :=
  neg != ranges.any (fun p => decide (p.1.toNat ≤ c.toNat) && decide (c.toNat ≤ p.2.toNat))

/-- Ends of the iterations of a greedy star. `step s` lists the ends of one
iteration from `s`; an iteration that consumes nothing is not repeated. -/
def starEnds (step : List Char → List (List Char)) : Nat → List Char → List (List Char)
  | 0, s => [s]
  | fuel + 1, s =>
    ((step s).filter (fun t => decide (t.length < s.length))).flatMap (starEnds step fuel) ++ [s]

/-- The call `ends n r s` lists, in priority order, what is left of `s` after each
way `r` can match a beginning of `s`; `n` is the length of the whole text, so that
`s.length = n` exactly at the beginning of the text. -/
def ends (n : Nat) : Regex → List Char → List (List Char)
  | empty, s => [s]
  | cls _ _, [] => []
  | cls neg ranges, c :: t => if inClass neg ranges c then [t] else []
  | bot, s => if s.length = n then [s] else []
  | eot, [] => [[]]
  | eot, _ :: _ => []
  | cat a b, s => (ends n a s).flatMap (fun t => ends n b t)
  | alt a b, s => ends n a s ++ ends n b s
  | star r, s => starEnds (fun t => ends n r t) s.length s

/-- Leftmost-first match at or after the current position: the rest of the
text at the beginning of the match and the rest at its end. -/
def find (n : Nat) (r : Regex) : List Char → Option (List Char × List Char)
  | [] => ((ends n r []).head?).map (fun e => ([], e))
  | c :: t =>
    match (ends n r (c :: t)).head? with
    | some e => some (c :: t, e)
    | none => find n r t

/-- The text between two positions given by what is left of the text. -/
def between (b e : List Char) : List Char := b.take (b.length - e.length)

/-- Go `(*Regexp).MatchString`. -/
def MatchString (r : Regex) (s : List Char) : Bool := (find s.length r s).isSome

/-- Go `(*Regexp).FindString`: the leftmost match, or the empty string. -/
def FindString (r : Regex) (s : List Char) : List Char :=
  match find s.length r s with
  | some (b, e) => between b e
  | none => []

/-- The loop of the library's `allMatches`: `s` is the text from `pos` on and
`prevEnd` the length of the text left at the end of the previous match. An
empty match right after the previous match is skipped, and after an empty
match the scan moves on by one character. -/
def allMatches (r : Regex) (n : Nat) : Nat → List Char → Option Nat → List (List Char)
  | 0, _, _ => []
  | fuel + 1, s, prevEnd =>
    match find n r s with
    | none => []
    | some (b, e) =>
      if e.length = s.length then
        let rest := match s with
          | [] => []
          | _ :: t => allMatches r n fuel t (some e.length)
        if prevEnd = some b.length then rest else [] :: rest
      else
        between b e :: allMatches r n fuel e (some e.length)

/-- Go `(*Regexp).FindAllString(s, -1)`: the successive non-overlapping matches. -/
def FindAllString (r : Regex) (s : List Char) : List (List Char) :=
  allMatches r s.length (s.length + 2) s none

/-! ## The pattern syntax

`Compile` reads the fragment of the library's pattern syntax that the program's
patterns are written in: literals, `.`, a backslash before an ASCII character
that is neither a letter nor a digit, `[...]` classes with ranges, capturing
groups, `|`, greedy `*`, `+`, `?`, counted repetition, `^` and `$`. Everything
else (flags, non-greedy operators, Perl, POSIX and Unicode classes, the
library's limits on the size of an expression) is rejected, so on a pattern
outside the fragment that the library accepts, such as a hostname text with
`\w` in it handed to `markUrlsToCheck`, `MatchPattern` is `false` where the
library may find a match. The constant patterns of the program and the
hostnames that `extractHostnamesIps` records lie inside the fragment
(`Compile_ipPattern` and the theorems after it, `Compile_hostname`). -/

/-- One level of open parenthesis while a pattern is read. -/
structure Frame where
  /-- finished branches of the group, latest first -/
  alts : List Regex
  /-- items of the branch being read, latest first -/
  seq : List Regex
  deriving DecidableEq

/-- The expression of a group whose text has been read. -/
def Frame.close (f : Frame) : Regex :=
  altOf ((concatOf f.seq.reverse :: f.alts).reverse)

/-- A backslash escapes exactly the ASCII characters that are no word characters. -/
def escapable (c : Char) : Bool := decide (c.toNat < 128) && !c.isAlphanum

/-- Whether `w` occurs in `s`. -/
def hasInfix (w s : List Char) : Bool := s.tails.any (fun t => w.isPrefixOf t)

/-- One character of a class, escaped or not. -/
def parseClassChar : List Char → Option (Char × List Char)
  | [] => none
  | c :: t =>
    if c = Char.ofNat 92 then
      match t with
      | [] => none
      | e :: t2 => if escapable e then some (e, t2) else none
    else some (c, t)

/-- The items of a class up to the closing bracket; `first` holds until the
first item has been read, where a closing bracket stands for itself. An item
that begins like a named class (`[:` with `:]` further on) is rejected. -/
def parseClassItems : Nat → Bool → List Char → List (Char × Char) →
    Option (List (Char × Char) × List Char)
  | 0, _, _, _ => none
  | _ + 1, _, [], _ => none
  | fuel + 1, first, c :: t, acc =>
    if c = ']' ∧ first = false then some (acc.reverse, t)
    else if c = '[' ∧ t.head? = some ':' ∧ hasInfix [':', ']'] t = true then none
    else
      match parseClassChar (c :: t) with
      | none => none
      | some (lo, t1) =>
        match t1 with
        | d :: x :: t2 =>
          if d = '-' ∧ x ≠ ']' then
            match parseClassChar (x :: t2) with
            | none => none
            | some (hi, t3) =>
              if hi.toNat < lo.toNat then none
              else parseClassItems fuel false t3 ((lo, hi) :: acc)
          else parseClassItems fuel false t1 ((lo, lo) :: acc)
        | _ => parseClassItems fuel false t1 ((lo, lo) :: acc)

/-- A class, the opening bracket already read. -/
def parseClass (t : List Char) : Option (Regex × List Char) :=
  let body := match t with
    | '^' :: t1 => (true, t1)
    | _ => (false, t)
  (parseClassItems (t.length + 1) true body.2 []).map (fun p => (cls body.1 p.1, p.2))

/-- A decimal number without a leading zero. -/
def parseInt (s : List Char) : Option (Nat × List Char) :=
  match s with
  | [] => none
  | c :: t =>
    if !c.isDigit then none
    else if c = '0' ∧ (t.head?.map Char.isDigit) = some true then none
    else
      let ds := s.takeWhile Char.isDigit
      some (ds.foldl (fun n d => n * 10 + (d.toNat - 48)) 0, s.dropWhile Char.isDigit)

/-- The counts of a repetition, the opening brace already read. -/
def parseRepeat (s : List Char) : Option ((Nat × Option Nat) × List Char) :=
  match parseInt s with
  | none => none
  | some (min, s1) =>
    match s1 with
    | [] => none
    | c :: s2 =>
      if c = '}' then some ((min, some min), s2)
      else if c = ',' then
        match s2 with
        | [] => none
        | c2 :: s3 =>
          if c2 = '}' then some ((min, none), s3)
          else
            match parseInt s2 with
            | none => none
            | some (max, s4) =>
              match s4 with
              | c3 :: s5 => if c3 = '}' then some ((min, some max), s5) else none
              | [] => none
      else none

/-- Whether the counts of a repetition are accepted. -/
def repeatOk (min : Nat) (max : Option Nat) : Bool :=
  match max with
  | none => decide (min ≤ 1000)
  | some m => decide (min ≤ 1000) && decide (m ≤ 1000) && decide (min ≤ m)

/-- A repetition operator applied to the latest item; `lastRep` says that the
latest item is itself the result of a repetition operator. -/
def applyRep (mk : Regex → Regex) (t : List Char) (cur : Frame) (lastRep : Bool) :
    Option Frame :=
  if lastRep then none
  else if t.head? = some '?' then none
  else
    match cur.seq with
    | [] => none
    | r :: rs => some { cur with seq := mk r :: rs }

/-- The main loop of the pattern reader. -/
def parseLoop : Nat → List Char → List Frame → Frame → Bool → Option Regex
  | 0, _, _, _, _ => none
  | _ + 1, [], stack, cur, _ => if stack.isEmpty then some cur.close else none
  | fuel + 1, c :: t, stack, cur, lastRep =>
    let push := fun (r : Regex) (t1 : List Char) =>
      parseLoop fuel t1 stack { cur with seq := r :: cur.seq } false
    let rep := fun (mk : Regex → Regex) (t1 : List Char) =>
      match applyRep mk t1 cur lastRep with
      | none => none
      | some cur1 => parseLoop fuel t1 stack cur1 true
    if c = '(' then
      if t.head? = some '?' then none
      else parseLoop fuel t (cur :: stack) ⟨[], []⟩ false
    else if c = ')' then
      match stack with
      | [] => none
      | parent :: stack1 =>
        parseLoop fuel t stack1 { parent with seq := cur.close :: parent.seq } false
    else if c = '|' then
      parseLoop fuel t stack ⟨concatOf cur.seq.reverse :: cur.alts, []⟩ false
    else if c = '*' then rep star t
    else if c = '+' then rep plus t
    else if c = '?' then rep opt t
    else if c = '{' then
      match parseRepeat t with
      | none => push (lit c) t
      | some ((min, max), t1) =>
        if repeatOk min max then rep (fun r => repeatOf r min max) t1 else none
    else if c = '[' then
      match parseClass t with
      | none => none
      | some (r, t1) => if t1.length ≤ t.length then push r t1 else none
    else if c = '.' then push dot t
    else if c = '^' then push bot t
    else if c = '$' then push eot t
    else if c = Char.ofNat 92 then
      match t with
      | [] => none
      | e :: t1 => if escapable e then push (lit e) t1 else none
    else push (lit c) t

/-- Go `regexp.Compile` on the fragment described above. -/
def Compile (pattern : List Char) : Option Regex :=
  parseLoop (pattern.length + 1) pattern [] ⟨[], []⟩ false

/-- Go `regexp.MatchString(pattern, s)`, the error dropped as the callers do:
a pattern that does not compile matches nothing. -/
def MatchPattern (pattern s : List Char) : Bool :=
  match Compile pattern with
  | some r => r.MatchString s
  | none => false

end Regex

open Regex

/-! ## The patterns of the program -/

/-- The double quote. -/
def dquote : Char := Char.ofNat 34

/-- The single quote. -/
def squote : Char := Char.ofNat 39

/-- Class `[a-zA-Z0-9]`. -/
def alnumCls : Regex := cls false [('a', 'z'), ('A', 'Z'), ('0', '9')]

/-- Class `[a-zA-Z]`. -/
def alphaCls : Regex := cls false [('a', 'z'), ('A', 'Z')]

/-- Class `[0-9]`. -/
def digitCls : Regex := cls false [('0', '9')]

/-- Class `["'/]`: the characters a hostname has to follow. -/
def markerCls : Regex := cls false [(dquote, dquote), (squote, squote), ('/', '/')]

/-- Class `[a-zA-Z0-9-_&=\.%?/]`: after `0-9` the dash stands for itself. -/
def pathCls : Regex :=
  cls false [('a', 'z'), ('A', 'Z'), ('0', '9'), ('-', '-'), ('_', '_'), ('&', '&'),
    ('=', '='), ('.', '.'), ('%', '%'), ('?', '?'), ('/', '/')]

/-- Class `[a-zA-Z0-9-_&=\.%?]`. -/
def queryCls : Regex :=
  cls false [('a', 'z'), ('A', 'Z'), ('0', '9'), ('-', '-'), ('_', '_'), ('&', '&'),
    ('=', '='), ('.', '.'), ('%', '%'), ('?', '?')]

/-- One octet: `25[0-5]|2[0-4][0-9]|[01]?[0-9][0-9]?`. -/
def octet : Regex :=
  altOf [concatOf [lit '2', lit '5', cls false [('0', '5')]],
    concatOf [lit '2', cls false [('0', '4')], digitCls],
    concatOf [opt (cls false [('0', '0'), ('1', '1')]), digitCls, opt digitCls]]

/-- Text of `ipPattern` in `extractHostnamesIps`. -/
def ipPatternText : List Char :=
  ("(25[0-5]|2[0-4][0-9]|[01]?[0-9][0-9]?)" ++
    "(\\.(25[0-5]|2[0-4][0-9]|[01]?[0-9][0-9]?))\x7b3\x7d").toList

/-- The compiled `ipPattern`. -/
def ipPattern : Regex := concatOf [octet, repeatOf (concatOf [lit '.', octet]) 3 (some 3)]

/-- One label of a hostname with its dot: `[a-zA-Z0-9]+(-[a-zA-Z0-9]+)*\.`. -/
def labelDot : Regex :=
  concatOf [plus alnumCls, star (concatOf [lit '-', plus alnumCls]), lit '.']

/-- Text of `hostnamePattern`. -/
def hostnamePatternText : List Char :=
  "[\"'/]([a-zA-Z0-9]+(-[a-zA-Z0-9]+)*\\.)+[a-zA-Z]+".toList

/-- The compiled `hostnameRegex`. -/
def hostnameRegex : Regex := concatOf [markerCls, plus labelDot, plus alphaCls]

/-- The part of `urlPattern` after the hostname, inside its outer group:
`(/[a-zA-Z0-9-_&=\.%?/]*)*(\.[a-z]+)(\?[a-zA-Z0-9-_&=\.%?]*){0,1}`. -/
def urlTail : Regex :=
  concatOf [star (concatOf [lit '/', star pathCls]),
    concatOf [lit '.', plus (cls false [('a', 'z')])],
    repeatOf (concatOf [lit '?', star queryCls]) 0 (some 1)]

/-- Text of `urlPattern`: the text of `hostnamePattern` and the optional tail. -/
def urlPatternText : List Char :=
  hostnamePatternText ++
    ("((/[a-zA-Z0-9-_&=\\.%?/]*)*(\\.[a-z]+)" ++
      "(\\?[a-zA-Z0-9-_&=\\.%?]*)\x7b0,1\x7d)\x7b0,1\x7d").toList

/-- The compiled `urlRegex`. -/
def urlRegex : Regex :=
  concatOf [markerCls, plus labelDot, plus alphaCls, repeatOf urlTail 0 (some 1)]

/-- Text of `tldPattern`. -/
def tldPatternText : List Char := "\\.([a-zA-Z]+(-[a-zA-Z]+)*)$".toList

/-- The compiled `tldPattern`. -/
def tldPattern : Regex :=
  concatOf [lit '.', concatOf [plus alphaCls, star (concatOf [lit '-', plus alphaCls])], eot]

/-- Text of `jsExtensionPattern` in `markUrlsToCheck`. -/
def jsExtensionPatternText : List Char :=
  "(cloudflare|cloudfront).*\\.js(\\?)\x7b0,1\x7d".toList

/-- What follows the first group in both patterns of `markUrlsToCheck`:
`.*\.js(\?){0,1}`. -/
def jsTailText : List Char := ".*\\.js(\\?)\x7b0,1\x7d".toList

/-- The compiled `jsRegex`. -/
def jsRegex : Regex :=
  concatOf [altOf [str "cloudflare".toList, str "cloudfront".toList], star dot,
    lit '.', lit 'j', lit 's', repeatOf (lit '?') 0 (some 1)]

/-! ## Data model -/

/-- Go `DiscoveredUrl`. -/
structure DiscoveredUrl where
  url : List Char
  hostname : List Char
  follow : Bool
  aws : Bool
  awsService : List Char
  deriving DecidableEq

/-- Go `Scraper`, the logger left out. -/
structure Scraper where
  rootHostname : List Char
  localFilename : List Char
  targetSiteUrl : List Char
  targetSiteListFilename : List Char
  discoveredUrls : List DiscoveredUrl
  discoveredIps : List (List Char)
  deriving DecidableEq

/-! ## Classifier -/

/-- The pattern of `markUrlsAsAwsService`. -/
def awsPatternText : List Char := "aws".toList

/-- Go `markUrlsAsAwsService`: the loop body on one record. -/
def markAws (url : DiscoveredUrl) : DiscoveredUrl :=
  if MatchPattern awsPatternText url.url then { url with aws := true } else url

/-- Go `(*Scraper).markUrlsAsAwsService`; the error it returns is always nil. -/
def markUrlsAsAwsService (scraper : Scraper) : Scraper :=
  { scraper with discoveredUrls := scraper.discoveredUrls.map markAws }

/-- Go `markUrlsToCheck`: the loop body on one record. The second pattern is
built from the hostname of the record itself. -/
def markFollow (url : DiscoveredUrl) : DiscoveredUrl :=
  let regexMatch := jsRegex.MatchString url.url
  let rootHostnameMatch := MatchPattern ('(' :: url.hostname ++ ')' :: jsTailText) url.url
  if regexMatch || rootHostnameMatch then { url with follow := true }
  else { url with follow := false }

/-- The condition of `markUrlsToCheck` on the two strings of a record. -/
def followFlag (url hostname : List Char) : Bool :=
  jsRegex.MatchString url || MatchPattern ('(' :: hostname ++ ')' :: jsTailText) url

/-- Go `(*Scraper).markUrlsToCheck`; the error it returns is always nil. -/
def markUrlsToCheck (scraper : Scraper) : Scraper :=
  { scraper with discoveredUrls := scraper.discoveredUrls.map markFollow }

/-! ## Extraction -/

/-- The body of the second loop of `extractHostnamesIps` on one match `rawUrl`:
`none` is an index out of range, `some none` a match that is dropped. -/
def extractUrl (TLDS : List Char → Bool) (rawUrl : List Char) :
    Option (Option DiscoveredUrl) :=
  let rawHostname := hostnameRegex.FindString rawUrl
  let tldMatch := tldPattern.FindString rawHostname
  match tldMatch with
  | [] => none
  | _ :: tld =>
    if TLDS tld then
      match rawUrl with
      | [] => none
      | c :: urlRest =>
        if c = dquote ∨ c = squote ∨ c = '/' then
          match rawHostname with
          | [] => none
          | _ :: hostRest =>
            some (some { url := urlRest, hostname := hostRest, follow := false, aws := false,
                         awsService := [] })
        else
          some (some { url := rawUrl, hostname := rawHostname, follow := false, aws := false,
                       awsService := [] })
    else some none

/-- The second loop of `extractHostnamesIps` over the matches of `urlRegex`. -/
def extractUrls (TLDS : List Char → Bool) : List (List Char) → Scraper → Option Scraper
  | [], scraper => some scraper
  | rawUrl :: rest, scraper =>
    match extractUrl TLDS rawUrl with
    | none => none
    | some none => extractUrls TLDS rest scraper
    | some (some newUrl) =>
      extractUrls TLDS rest { scraper with discoveredUrls := scraper.discoveredUrls ++ [newUrl] }

/-- Go `(*Scraper).extractHostnamesIps`; `none` is a run-time panic. -/
def extractHostnamesIps (TLDS : List Char → Bool) (scraper : Scraper) (line : List Char) :
    Option Scraper :=
  let submatchall := ipPattern.FindAllString line
  let scraper1 := { scraper with discoveredIps := scraper.discoveredIps ++ submatchall }
  extractUrls TLDS (urlRegex.FindAllString line) scraper1

/-- The read loop of `scrapeLocalFile` over the chunks the reads deliver. -/
def scanChunks (TLDS : List Char → Bool) : List (List Char) → Scraper → Option Scraper
  | [], scraper => some scraper
  | stringChunk :: rest, scraper =>
    match extractHostnamesIps TLDS scraper stringChunk with
    | none => none
    | some scraper1 => scanChunks TLDS rest scraper1

/-- A file system: the chunks that successive reads of a file deliver (each at
most 1024 bytes long in the program), `none` for a file that cannot be opened. -/
abbrev Files := List Char → Option (List (List Char))

/-- Go `(*Scraper).scrapeLocalFile`: the scraper afterwards and whether the
error returned is non-nil; `none` is a panic (the file cannot be opened, or an
index is out of range). -/
def scrapeLocalFile (TLDS : List Char → Bool) (files : Files) (scraper : Scraper) :
    Option (Scraper × Bool) :=
  if scraper.localFilename = [] then some (scraper, true)
  else
    match files scraper.localFilename with
    | none => none
    | some chunks => (scanChunks TLDS chunks scraper).map (fun s => (s, false))

/-! ## Crawl controller -/

/-- Go `scrapeController`, the logger left out. -/
structure scrapeController where
  verboseLevel : Int
  maxLevel : Int
  currentLevel : Int
  deriving DecidableEq

/-- Go `NewScrapeController`. -/
def NewScrapeController (verboseLevel : Int) : scrapeController :=
  { verboseLevel := verboseLevel, maxLevel := 1, currentLevel := 0 }

/-- What a run of the controller acts on: the controller itself, the files,
the lines written to standard output and the URLs requested, in order. -/
structure CrawlState where
  sc : scrapeController
  files : Files
  stdout : List (List Char)
  requests : List (List Char)

/-- Result of a run: it returned, it panicked, or the model ran out of fuel. -/
inductive Run (α : Type) where
  | done (a : α) : Run α
  | panicked : Run α
  | timeout : Run α

/-- The web: the body served for a URL, as the chunks a later read of the
downloaded file delivers; `none` is a failed request. -/
abbrev Web := List Char → Option (List (List Char))

/-- The pattern of `downloadFile`. -/
def httpPatternText : List Char := "^http".toList

/-- Go `downloadFile`: requests the URL, `http://` put before it unless it
begins with `http`, and writes the body to `filepath`. Returns whether the
error is non-nil; the only error modelled is that of the request (creating
and writing the file succeed). -/
def downloadFile (web : Web) (filepath url : List Char) (st : CrawlState) : CrawlState × Bool :=
  let fullUrl := if MatchPattern httpPatternText url then url else "http://".toList ++ url
  let st1 := { st with requests := st.requests ++ [fullUrl] }
  match web fullUrl with
  | none => (st1, true)
  | some body =>
    ({ st1 with files := fun f => if f = filepath then some body else st1.files f }, false)

/-- Go `(*scrapeController).ScrapeSite`, given the `ScrapeLocalFile` it calls.
Returns the error message, if any. -/
def ScrapeSiteWith (web : Web)
    (scrapeLocal : List Char → List Char → CrawlState → Run (Option (List Char) × CrawlState))
    (targetSite : List Char) (st : CrawlState) : Run (Option (List Char) × CrawlState) :=
  let fileName := "/tmp/test.txt".toList
  match downloadFile web fileName targetSite st with
  | (st1, true) => .done (some "Download did not work".toList, st1)
  | (st1, false) =>
    match scrapeLocal targetSite fileName st1 with
    | .done (_, st2) => .done (none, st2)
    | .panicked => .panicked
    | .timeout => .timeout

/-- The dispatch loop of `ScrapeLocalFile` over the classified records, given
the `ScrapeSite` it calls. -/
def dispatch (site : List Char → CrawlState → Run (Option (List Char) × CrawlState)) :
    List DiscoveredUrl → CrawlState → Run CrawlState
  | [], st => .done st
  | url :: rest, st =>
    let afterFollow : Run CrawlState :=
      if url.follow then
        if st.sc.currentLevel < st.sc.maxLevel then
          match site url.url st with
          | .done (_, st1) =>
            .done { st1 with sc := { st1.sc with currentLevel := st1.sc.currentLevel + 1 } }
          | .panicked => .panicked
          | .timeout => .timeout
        else .done st
      else .done st
    match afterFollow with
    | .done st2 =>
      dispatch site rest
        (if url.aws then { st2 with stdout := st2.stdout ++ [url.hostname] } else st2)
    | .panicked => .panicked
    | .timeout => .timeout

/-- The scraper `ScrapeLocalFile` starts from: `Scraper{rootHostname: hostname}`
with `localFilename` set. -/
def newScraper (hostname localFilename : List Char) : Scraper :=
  { rootHostname := hostname
    localFilename := localFilename
    targetSiteUrl := []
    targetSiteListFilename := []
    discoveredUrls := []
    discoveredIps := [] }

/-- Go `(*scrapeController).ScrapeLocalFile`, given the `ScrapeSite` it calls.
The error of `scrapeLocalFile` is dropped, and the error returned is nil. -/
def ScrapeLocalFileWith (TLDS : List Char → Bool)
    (site : List Char → CrawlState → Run (Option (List Char) × CrawlState))
    (hostname localFilename : List Char) (st : CrawlState) :
    Run (Option (List Char) × CrawlState) :=
  match scrapeLocalFile TLDS st.files (newScraper hostname localFilename) with
  | none => .panicked
  | some (s1, _) =>
    let s2 := markUrlsToCheck s1
    let s3 := markUrlsAsAwsService s2
    match dispatch site s3.discoveredUrls st with
    | .done st1 => .done (none, { st1 with sc := { st1.sc with currentLevel := 0 } })
    | .panicked => .panicked
    | .timeout => .timeout

/-- Go `(*scrapeController).ScrapeLocalFile`; `fuel` bounds the depth of the
calls of `ScrapeSite` inside each other. -/
def ScrapeLocalFile (TLDS : List Char → Bool) (web : Web) :
    Nat → List Char → List Char → CrawlState → Run (Option (List Char) × CrawlState)
  | 0, _, _, _ => .timeout
  | fuel + 1, hostname, localFilename, st =>
    ScrapeLocalFileWith TLDS (ScrapeSiteWith web (ScrapeLocalFile TLDS web fuel))
      hostname localFilename st

/-- Go `(*scrapeController).ScrapeSite`. -/
def ScrapeSite (TLDS : List Char → Bool) (web : Web) (fuel : Nat) (targetSite : List Char)
    (st : CrawlState) : Run (Option (List Char) × CrawlState) :=
  ScrapeSiteWith web (ScrapeLocalFile TLDS web fuel) targetSite st

/-- Go `(*scrapeController).ScrapeSiteList`. -/
def ScrapeSiteList (_targetSiteListFilename : List Char) (st : CrawlState) :
    Option (List Char) × CrawlState :=
  (none, st)

/-! ## Auxiliary definitions used in the statements -/

/-- What a run returned, if it returned. -/
def Run.get? {α : Type} : Run α → Option α
  | .done a => some a
  | .panicked => none
  | .timeout => none

/-- The lines the dispatch loop prints for the records `urls`: the hostnames of
the records marked `aws`, in order. -/
def printAws (urls : List DiscoveredUrl) (st : CrawlState) : CrawlState :=
  { st with stdout := st.stdout ++ (urls.filter (fun u => u.aws)).map (fun u => u.hostname) }

/-- Words of the specification: `s` contains `a`, followed later by `b`. -/
def containsThen (a b s : List Char) : Bool :=
  s.tails.any (fun t => a.isPrefixOf t && hasInfix b (t.drop a.length))

/-- Words of the specification: the URL matches the CDN-script pattern or the
same-root-script pattern of a session with root hostname `rootHostname`. -/
def specFollow (rootHostname url : List Char) : Bool :=
  containsThen "cloudflare".toList ".js".toList url ||
    containsThen "cloudfront".toList ".js".toList url ||
    containsThen rootHostname ".js".toList url

/-- The chunk of the scenario with a CDN script and an address. -/
def scenarioChunk : List Char :=
  "Loaded from \"cdn.cloudflare.com/lib.js?v=2\" and see 10.0.0.5".toList

/-- A registry with the single entry `w`. -/
def onlyTld (w : List Char) : List Char → Bool := fun t => decide (t = w)

/-- A file system with the single file `name`. -/
def oneFile (name : List Char) (chunks : List (List Char)) : Files :=
  fun f => if f = name then some chunks else none

/-- A web of three pages: the script `a.io/a.js` names the script `a.io/b.js`,
which names `a.io/c.js`, which names nothing. -/
def chainWeb : Web := fun u =>
  if u = "http://a.io/a.js".toList then some ["see \"a.io/b.js\"".toList]
  else if u = "http://a.io/b.js".toList then some ["see \"a.io/c.js\"".toList]
  else if u = "http://a.io/c.js".toList then some ["the end".toList]
  else none

/-- A fresh controller in front of the file system `files`. -/
def startState (files : Files) : CrawlState :=
  { sc := NewScrapeController 0, files := files, stdout := [], requests := [] }

/-- Three classified records, all marked `follow`, the second also `aws`. -/
def threeScripts : List DiscoveredUrl :=
  [{ url := "a.io/c.js".toList, hostname := "a.io".toList, follow := true, aws := false,
     awsService := [] },
   { url := "aws.io/b.js".toList, hostname := "aws.io".toList, follow := true, aws := true,
     awsService := [] },
   { url := "a.io/a.js".toList, hostname := "a.io".toList, follow := true, aws := false,
     awsService := [] }]

/-- The state in which `ScrapeSite("a.io/c.js")` returns when it is called in
`startState (oneFile "root" [])` in front of `chainWeb`. -/
def afterFirstScript : CrawlState :=
  { sc := NewScrapeController 0
    files := fun f =>
      if f = "/tmp/test.txt".toList then some ["the end".toList]
      else oneFile "root".toList [] f
    stdout := []
    requests := ["http://a.io/c.js".toList] }

/-! ## The language of an expression -/

namespace Regex

/-- The words an expression matches, the two anchors read as the empty word. -/
inductive Lang : Regex → List Char → Prop where
  | empty : Lang empty []
  | cls {neg : Bool} {ranges : List (Char × Char)} {c : Char} :
      inClass neg ranges c = true → Lang (cls neg ranges) [c]
  | bot : Lang bot []
  | eot : Lang eot []
  | cat {a b : Regex} {u v : List Char} : Lang a u → Lang b v → Lang (cat a b) (u ++ v)
  | altL {a b : Regex} {u : List Char} : Lang a u → Lang (alt a b) u
  | altR {a b : Regex} {u : List Char} : Lang b u → Lang (alt a b) u
  | starNil {r : Regex} : Lang (star r) []
  | starCons {r : Regex} {u v : List Char} :
      Lang r u → Lang (star r) v → Lang (star r) (u ++ v)

/-- An expression without `^` and `$`. -/
def anchorFree : Regex → Bool
  | empty => true
  | cls _ _ => true
  | bot => false
  | eot => false
  | cat a b => anchorFree a && anchorFree b
  | alt a b => anchorFree a && anchorFree b
  | star r => anchorFree r

/-- Whether the expression matches the whole of `w`. -/
def fullMatch (r : Regex) (w : List Char) : Bool := (ends w.length r w).contains []

end Regex

/-- The trailing label of a hostname: the text after its last dot. -/
def trailingLabel (h : List Char) : List Char :=
  (h.reverse.takeWhile (fun c => c != '.')).reverse

/-- The hostname grammar: `hostnamePattern` without the marker in front. -/
def hostnameGrammar : Regex := concatOf [plus labelDot, plus alphaCls]

/-- A decimal digit. -/
def isDigit (c : Char) : Bool := inClass false [('0', '9')] c

/-- A decimal digit or a dot: the characters an address is made of. -/
def digitOrDot (c : Char) : Bool := isDigit c || c == '.'

/-- The record `extractHostnamesIps` makes of a match `rawUrl` of `urlRegex`
whose hostname has a trailing label in the registry. -/
def recordOf (TLDS : List Char → Bool) (rawUrl : List Char) : Option DiscoveredUrl :=
  if TLDS (trailingLabel ((hostnameRegex.FindString rawUrl).drop 1)) then
    some { url := rawUrl.drop 1, hostname := (hostnameRegex.FindString rawUrl).drop 1,
           follow := false, aws := false, awsService := [] }
  else none

/-- No match of `r` begins inside `pre`, in the text `pre ++ rest` of length `n`. -/
def cleanBefore (r : Regex) (n : Nat) : List Char → List Char → Bool
  | [], _ => true
  | c :: pre, rest => (ends n r (c :: (pre ++ rest))).isEmpty && cleanBefore r n pre rest

/-- The texts `xs` occur in `s` from left to right, one after the other. -/
def occurInOrder : List (List Char) → List Char → Prop
  | [], _ => True
  | x :: xs, s => ∃ pre rest, s = pre ++ (x ++ rest) ∧ occurInOrder xs rest

/-- The number a text of decimal digits stands for. -/
def fieldValue (o : List Char) : Nat := o.foldl (fun n d => n * 10 + (d.toNat - 48)) 0

/-- A decimal field of one to three digits with a value from 0 to 255. -/
def decimalField (o : List Char) : Bool :=
  decide (1 ≤ o.length) && decide (o.length ≤ 3) && o.all isDigit && decide (fieldValue o ≤ 255)

/-- Four decimal fields with dots between them. -/
def dottedQuad (x : List Char) : Prop :=
  ∃ o1 o2 o3 o4, x = o1 ++ '.' :: (o2 ++ '.' :: (o3 ++ '.' :: o4)) ∧
    decimalField o1 = true ∧ decimalField o2 = true ∧ decimalField o3 = true ∧
    decimalField o4 = true

/-- One of the marker characters `"`, `'` and `/`. -/
def isMarker (c : Char) : Bool := c == dquote || c == squote || c == '/'

/-- A session with three records whose flags are unset, the way extraction
leaves the flags of the records it makes. -/
def freshSession : Scraper :=
  { rootHostname := "a.io".toList
    localFilename := "page".toList
    targetSiteUrl := []
    targetSiteListFilename := []
    discoveredUrls := threeScripts.map (fun u => { u with follow := false, aws := false })
    discoveredIps := [] }

/-- What a character of a hostname stands for when the hostname is read as a
pattern: the dot is the wildcard, a letter, a digit or a dash is itself. -/
def charRe (c : Char) : Regex := if c = '.' then dot else lit c

/-- A hostname read as a pattern, character by character. -/
def hostRe (h : List Char) : Regex := concatOf (h.map charRe)

/-- The compiled `.*\.js(\?){0,1}`, the end of both patterns of `markUrlsToCheck`. -/
def jsTail : Regex :=
  concatOf [star dot, lit '.', lit 'j', lit 's', repeatOf (lit '?') 0 (some 1)]

/-- The characters that are operators of the pattern syntax, the dot apart. -/
def metaChars : List Char :=
  ['(', ')', '|', '*', '+', '?', '{', '[', '^', '$', Char.ofNat 92]

/-- No class of the expression holds the character `x`. -/
def classesExclude (x : Char) : Regex → Bool
  | .empty => true
  | .cls neg ranges => !neg && !inClass false ranges x
  | .bot => true
  | .eot => true
  | .cat a b => classesExclude x a && classesExclude x b
  | .alt a b => classesExclude x a && classesExclude x b
  | .star r => classesExclude x r

/-- Words of the specification: the URL contains `cloudflare` or `cloudfront`
followed later by `.js`, or the part of the URL after the hostname of the
record contains `.js`. -/
def ownHostFollow (url hostname : List Char) : Bool :=
  containsThen "cloudflare".toList ".js".toList url ||
    containsThen "cloudfront".toList ".js".toList url ||
    hasInfix ".js".toList (url.drop hostname.length)

/-! ## Compiling the pattern texts -/

theorem Compile_ipPattern : Compile ipPatternText = some ipPattern := by decide

theorem Compile_hostnamePattern : Compile hostnamePatternText = some hostnameRegex := by decide

theorem Compile_urlPattern : Compile urlPatternText = some urlRegex := by decide

theorem Compile_tldPattern : Compile tldPatternText = some tldPattern := by decide

theorem Compile_jsExtensionPattern : Compile jsExtensionPatternText = some jsRegex := by decide

theorem Compile_aws : Compile awsPatternText = some (str "aws".toList) := by decide

theorem Compile_http : Compile httpPatternText = some (concatOf [bot, str "http".toList]) := by
  decide

/-! ## The classifier passes -/

theorem markFollow_url (u : DiscoveredUrl) : (markFollow u).url = u.url := by
  unfold markFollow; dsimp only; split <;> rfl

theorem markFollow_hostname (u : DiscoveredUrl) : (markFollow u).hostname = u.hostname := by
  unfold markFollow; dsimp only; split <;> rfl

theorem markAws_url (u : DiscoveredUrl) : (markAws u).url = u.url := by
  unfold markAws; split <;> rfl

/-- The flag `markUrlsToCheck` writes, as a function of the two strings of a record. -/
theorem markFollow_eq (u : DiscoveredUrl) :
    markFollow u = { u with follow := followFlag u.url u.hostname } := by
  unfold markFollow followFlag; dsimp only
  split <;> rename_i h
  · rw [h]
  · rw [Bool.not_eq_true] at h
    rw [h]

theorem markFollow_idem (u : DiscoveredUrl) : markFollow (markFollow u) = markFollow u := by
  rw [markFollow_eq (markFollow u), markFollow_url, markFollow_hostname, markFollow_eq u]

theorem markAws_idem (u : DiscoveredUrl) : markAws (markAws u) = markAws u := by
  by_cases h : MatchPattern awsPatternText u.url = true
  · have e : markAws u = { u with aws := true } := by simp [markAws, h]
    rw [e]
    simp [markAws, h]
  · have e : markAws u = u := by simp [markAws, h]
    rw [e, e]

/-- C9: each classifier pass keeps the records in place (same length, same
order), changes no field of a record other than its own flag (`follow` for
`markUrlsToCheck`, `aws` for `markUrlsAsAwsService`), and leaves `discoveredIps`
and every other field of the scraper unchanged. -/
theorem classifier_frame (s : Scraper) :
    ((markUrlsToCheck s).discoveredUrls.length = s.discoveredUrls.length ∧
      (markUrlsToCheck s).discoveredUrls.map (fun u => { u with follow := false }) =
        s.discoveredUrls.map (fun u => { u with follow := false }) ∧
      (markUrlsToCheck s).discoveredUrls.map (fun u => (u.url, u.hostname)) =
        s.discoveredUrls.map (fun u => (u.url, u.hostname)) ∧
      (markUrlsToCheck s).discoveredIps = s.discoveredIps ∧
      markUrlsToCheck s = { s with discoveredUrls := (markUrlsToCheck s).discoveredUrls }) ∧
    ((markUrlsAsAwsService s).discoveredUrls.length = s.discoveredUrls.length ∧
      (markUrlsAsAwsService s).discoveredUrls.map (fun u => { u with aws := false }) =
        s.discoveredUrls.map (fun u => { u with aws := false }) ∧
      (markUrlsAsAwsService s).discoveredUrls.map (fun u => (u.url, u.hostname)) =
        s.discoveredUrls.map (fun u => (u.url, u.hostname)) ∧
      (markUrlsAsAwsService s).discoveredIps = s.discoveredIps ∧
      markUrlsAsAwsService s =
        { s with discoveredUrls := (markUrlsAsAwsService s).discoveredUrls }) := by
  refine ⟨⟨?_, ?_, ?_, rfl, rfl⟩, ⟨?_, ?_, ?_, rfl, rfl⟩⟩
  · simp [markUrlsToCheck]
  · simp only [markUrlsToCheck, List.map_map]
    apply List.map_congr_left
    intro u _
    simp [markFollow_eq]
  · simp only [markUrlsToCheck, List.map_map]
    apply List.map_congr_left
    intro u _
    simp [markFollow_url, markFollow_hostname]
  · simp [markUrlsAsAwsService]
  · simp only [markUrlsAsAwsService, List.map_map]
    apply List.map_congr_left
    intro u _
    simp only [Function.comp, markAws]
    split <;> rfl
  · simp only [markUrlsAsAwsService, List.map_map]
    apply List.map_congr_left
    intro u _
    simp only [Function.comp, markAws]
    split <;> rfl

/-- C10: both classifier passes are idempotent, and each is a map of a function
of one record over the list: `markUrlsToCheck` sets `follow` to a value computed
from the `url` and `hostname` of the record alone, `markUrlsAsAwsService` sets
`aws` to true on the records chosen by a test of their `url` alone, so a pass
over two lists put together is the two passes put together, whatever the order. -/
theorem classifier_idempotent_local :
    (∀ s : Scraper, markUrlsToCheck (markUrlsToCheck s) = markUrlsToCheck s) ∧
    (∀ s : Scraper, markUrlsAsAwsService (markUrlsAsAwsService s) = markUrlsAsAwsService s) ∧
    (∃ f : List Char → List Char → Bool, ∀ s : Scraper,
      (markUrlsToCheck s).discoveredUrls =
        s.discoveredUrls.map (fun u => { u with follow := f u.url u.hostname })) ∧
    (∃ g : List Char → Bool, ∀ s : Scraper,
      (markUrlsAsAwsService s).discoveredUrls =
        s.discoveredUrls.map (fun u => if g u.url then { u with aws := true } else u)) ∧
    (∀ (s : Scraper) (l1 l2 : List DiscoveredUrl),
      (markUrlsToCheck { s with discoveredUrls := l1 ++ l2 }).discoveredUrls =
        (markUrlsToCheck { s with discoveredUrls := l1 }).discoveredUrls ++
          (markUrlsToCheck { s with discoveredUrls := l2 }).discoveredUrls ∧
      (markUrlsAsAwsService { s with discoveredUrls := l1 ++ l2 }).discoveredUrls =
        (markUrlsAsAwsService { s with discoveredUrls := l1 }).discoveredUrls ++
          (markUrlsAsAwsService { s with discoveredUrls := l2 }).discoveredUrls) := by
  refine ⟨?_, ?_, ?_, ?_, ?_⟩
  · intro s
    simp only [markUrlsToCheck, List.map_map]
    congr 1
    apply List.map_congr_left
    intro u _
    exact markFollow_idem u
  · intro s
    simp only [markUrlsAsAwsService, List.map_map]
    congr 1
    apply List.map_congr_left
    intro u _
    exact markAws_idem u
  · refine ⟨followFlag, ?_⟩
    intro s
    simp only [markUrlsToCheck]
    apply List.map_congr_left
    intro u _
    exact markFollow_eq u
  · refine ⟨fun url => MatchPattern awsPatternText url, ?_⟩
    intro s
    rfl
  · intro s l1 l2
    simp [markUrlsToCheck, markUrlsAsAwsService]

/-! ## Scenarios evaluated on the code -/

theorem scenario_ips : ipPattern.FindAllString scenarioChunk = ["10.0.0.5".toList] := by
  decide

theorem scenario_urls :
    urlRegex.FindAllString scenarioChunk =
      [dquote :: "cdn.cloudflare.com/lib.js?v=2".toList] := by
  decide

theorem scenario_hostname :
    hostnameRegex.FindString (dquote :: "cdn.cloudflare.com/lib.js?v=2".toList) =
      dquote :: "cdn.cloudflare.com".toList := by
  decide

theorem scenario_tld :
    tldPattern.FindString (dquote :: "cdn.cloudflare.com".toList) = ".com".toList := by
  decide

theorem scenario_follow :
    markFollow { url := "cdn.cloudflare.com/lib.js?v=2".toList,
                 hostname := "cdn.cloudflare.com".toList,
                 follow := false, aws := false, awsService := [] } =
      { url := "cdn.cloudflare.com/lib.js?v=2".toList,
        hostname := "cdn.cloudflare.com".toList,
        follow := true, aws := false, awsService := [] } := by
  decide

/-- C7: with a registry that contains `com`, scanning the chunk
`Loaded from "cdn.cloudflare.com/lib.js?v=2" and see 10.0.0.5` from an empty
session and then running `markUrlsToCheck` gives `discoveredIps = ["10.0.0.5"]`
and exactly one record, with `url = "cdn.cloudflare.com/lib.js?v=2"`,
`hostname = "cdn.cloudflare.com"` and `follow = true`. -/
theorem scenario_cdn_script (TLDS : List Char → Bool) (hostname localFilename : List Char)
    (hcom : TLDS "com".toList = true) :
    (extractHostnamesIps TLDS (newScraper hostname localFilename) scenarioChunk).map
        markUrlsToCheck =
      some { rootHostname := hostname
             localFilename := localFilename
             targetSiteUrl := []
             targetSiteListFilename := []
             discoveredUrls :=
               [{ url := "cdn.cloudflare.com/lib.js?v=2".toList,
                  hostname := "cdn.cloudflare.com".toList,
                  follow := true, aws := false, awsService := [] }]
             discoveredIps := ["10.0.0.5".toList] } := by
  have e1 : extractUrl TLDS (dquote :: "cdn.cloudflare.com/lib.js?v=2".toList) =
      some (some { url := "cdn.cloudflare.com/lib.js?v=2".toList,
                   hostname := "cdn.cloudflare.com".toList,
                   follow := false, aws := false, awsService := [] }) := by
    have e : ".com".toList = '.' :: "com".toList := rfl
    unfold extractUrl
    simp only [scenario_hostname, scenario_tld, e, hcom, if_true, true_or]
  unfold extractHostnamesIps
  rw [scenario_ips, scenario_urls]
  simp only [extractUrls, e1, Option.map, markUrlsToCheck, newScraper, List.nil_append,
    List.map, scenario_follow]

theorem scenario_cdn_script_witness :
    onlyTld "com".toList "com".toList = true ∧
    (extractHostnamesIps (onlyTld "com".toList)
        (newScraper "example.com".toList "page.html".toList) scenarioChunk).map
        markUrlsToCheck =
      some { rootHostname := "example.com".toList
             localFilename := "page.html".toList
             targetSiteUrl := []
             targetSiteListFilename := []
             discoveredUrls :=
               [{ url := "cdn.cloudflare.com/lib.js?v=2".toList,
                  hostname := "cdn.cloudflare.com".toList,
                  follow := true, aws := false, awsService := [] }]
             discoveredIps := ["10.0.0.5".toList] } :=
  ⟨by decide, scenario_cdn_script (onlyTld "com".toList) "example.com".toList
    "page.html".toList (by decide)⟩

/-- C1 (the code at the failing input): in a session with root hostname
`example.com` and a registry that contains `org`, the chunk `"other.org/app.js"`
gives one record, and `markUrlsToCheck` marks it `follow = true`, although its
URL matches neither the CDN-script pattern nor the same-root-script pattern of
the session: the second test is built from the hostname of the record itself. -/
theorem follow_ignores_rootHostname :
    ((extractHostnamesIps (onlyTld "org".toList) (newScraper "example.com".toList "page".toList)
        (dquote :: "other.org/app.js".toList ++ [dquote])).map
      (fun s => (markUrlsToCheck s).discoveredUrls.map
        (fun u => (u.url, u.hostname, u.follow, specFollow s.rootHostname u.url)))) =
      some [("other.org/app.js".toList, "other.org".toList, true, false)] := by
  decide

/-- C2 (the code at the failing input): a controller made by
`NewScrapeController` (`maxLevel = 1`, `currentLevel = 0`) scrapes a root page
that names the script `a.io/a.js`; the pages of the web name one script each.
The run returns after three requests, one inside the other: the nested call
of `ScrapeLocalFile` still sees `currentLevel = 0`. -/
theorem depth_counter_does_not_bound_recursion :
    ((ScrapeLocalFile (onlyTld "io".toList) chainWeb 4 "a.io".toList "root".toList
        (startState (oneFile "root".toList ["see \"a.io/a.js\"".toList]))).get?.map
      (fun r => (r.2.sc.maxLevel, r.2.requests))) =
      some (1, ["http://a.io/a.js".toList, "http://a.io/b.js".toList,
        "http://a.io/c.js".toList]) := by
  decide

/-- C6 (the code at the failing input): called with an empty `localFilename`,
`ScrapeLocalFile` discovers, fetches and prints nothing, and the error it
returns is nil: the error made by `scrapeLocalFile` is dropped. -/
theorem empty_filename_returns_nil (TLDS : List Char → Bool) (web : Web) (fuel : Nat)
    (hostname : List Char) (st : CrawlState) :
    scrapeLocalFile TLDS st.files (newScraper hostname []) =
      some (newScraper hostname [], true) ∧
    ScrapeLocalFile TLDS web (fuel + 1) hostname [] st =
      .done (none, { st with sc := { st.sc with currentLevel := 0 } }) := by
  constructor
  · simp [scrapeLocalFile, newScraper]
  · simp [ScrapeLocalFile, ScrapeLocalFileWith, scrapeLocalFile, newScraper, markUrlsToCheck,
      markUrlsAsAwsService, dispatch]

/-! ## The dispatch loop -/

theorem printAws_nil (st : CrawlState) : printAws [] st = st := by
  simp [printAws]

theorem printAws_cons (u : DiscoveredUrl) (rest : List DiscoveredUrl) (st : CrawlState) :
    printAws (u :: rest) st =
      printAws rest (if u.aws then { st with stdout := st.stdout ++ [u.hostname] } else st) := by
  cases h : u.aws <;> simp [printAws, h, List.filter_cons]

theorem printAws_sc (urls : List DiscoveredUrl) (st : CrawlState) :
    (printAws urls st).sc = st.sc := rfl

/-- Records that are not to be followed are only printed. -/
theorem dispatch_skip (site : List Char → CrawlState → Run (Option (List Char) × CrawlState))
    (pre rest : List DiscoveredUrl) (st : CrawlState) (hpre : ∀ x ∈ pre, x.follow = false) :
    dispatch site (pre ++ rest) st = dispatch site rest (printAws pre st) := by
  induction pre generalizing st with
  | nil => simp [printAws_nil]
  | cons x xs ih =>
    have hx : x.follow = false := hpre x (List.mem_cons_self _ _)
    have hxs : ∀ y ∈ xs, y.follow = false := fun y hy => hpre y (List.mem_cons_of_mem _ hy)
    rw [List.cons_append, dispatch]
    simp only [hx, Bool.false_eq_true, if_false]
    rw [ih _ hxs, printAws_cons]

/-- Once the counter has reached `maxLevel`, records are only printed. -/
theorem dispatch_at_max (site : List Char → CrawlState → Run (Option (List Char) × CrawlState))
    (urls : List DiscoveredUrl) (st : CrawlState) (hmax : st.sc.maxLevel ≤ st.sc.currentLevel) :
    dispatch site urls st = .done (printAws urls st) := by
  induction urls generalizing st with
  | nil => simp [dispatch, printAws_nil]
  | cons x xs ih =>
    rw [dispatch]
    have hlt : ¬ st.sc.currentLevel < st.sc.maxLevel := not_lt.mpr hmax
    simp only [hlt, if_false, ite_self]
    rw [printAws_cons]
    apply ih
    split <;> exact hmax

theorem downloadFile_sc (web : Web) (filepath url : List Char) (st : CrawlState) :
    (downloadFile web filepath url st).1.sc = st.sc := by
  unfold downloadFile
  dsimp only
  split <;> rfl

/-- A call of `ScrapeSite` that returns leaves the controller as it was, or as
it was with the counter back at 0. -/
theorem ScrapeSiteWith_sc (web : Web)
    (scrapeLocal : List Char → List Char → CrawlState → Run (Option (List Char) × CrawlState))
    (hlocal : ∀ h f st r, scrapeLocal h f st = .done r →
      r.2.sc = { st.sc with currentLevel := 0 })
    (targetSite : List Char) (st : CrawlState) (r : Option (List Char) × CrawlState)
    (hr : ScrapeSiteWith web scrapeLocal targetSite st = .done r) :
    r.2.sc = st.sc ∨ r.2.sc = { st.sc with currentLevel := 0 } := by
  unfold ScrapeSiteWith at hr
  dsimp only at hr
  have hd := downloadFile_sc web "/tmp/test.txt".toList targetSite st
  rcases hdl : downloadFile web "/tmp/test.txt".toList targetSite st with ⟨st1, b⟩
  rw [hdl] at hr hd
  cases b with
  | true =>
    simp only [Run.done.injEq] at hr
    subst hr
    exact Or.inl hd
  | false =>
    simp only at hr
    cases hl : scrapeLocal targetSite "/tmp/test.txt".toList st1 with
    | done r1 =>
      rw [hl] at hr
      simp only [Run.done.injEq] at hr
      subst hr
      have := hlocal _ _ _ _ hl
      right
      simp only at hd
      rw [← hd]
      exact this
    | panicked => rw [hl] at hr; simp at hr
    | timeout => rw [hl] at hr; simp at hr

/-- The dispatch loop changes nothing of the controller but the counter. -/
theorem dispatch_config (site : List Char → CrawlState → Run (Option (List Char) × CrawlState))
    (hsite : ∀ t st r, site t st = .done r →
      r.2.sc = st.sc ∨ r.2.sc = { st.sc with currentLevel := 0 })
    (urls : List DiscoveredUrl) (st st1 : CrawlState) (h : dispatch site urls st = .done st1) :
    st1.sc.maxLevel = st.sc.maxLevel ∧ st1.sc.verboseLevel = st.sc.verboseLevel := by
  induction urls generalizing st with
  | nil =>
    simp only [dispatch, Run.done.injEq] at h
    subst h
    exact ⟨rfl, rfl⟩
  | cons x xs ih =>
    rw [dispatch] at h
    dsimp only at h
    split at h
    · rename_i st2 hst2
      have h2 : st2.sc.maxLevel = st.sc.maxLevel ∧ st2.sc.verboseLevel = st.sc.verboseLevel := by
        split at hst2
        · split at hst2
          · split at hst2
            · rename_i e st3 hs
              simp only [Run.done.injEq] at hst2
              subst hst2
              rcases hsite _ _ _ hs with h3 | h3
              · simp only at h3
                simp [h3]
              · simp only at h3
                simp [h3]
            · simp at hst2
            · simp at hst2
          · simp only [Run.done.injEq] at hst2
            subst hst2
            exact ⟨rfl, rfl⟩
        · simp only [Run.done.injEq] at hst2
          subst hst2
          exact ⟨rfl, rfl⟩
      have h3 := ih _ h
      split at h3
      · exact ⟨h3.1.trans h2.1, h3.2.trans h2.2⟩
      · exact ⟨h3.1.trans h2.1, h3.2.trans h2.2⟩
    · simp at h
    · simp at h

/-- A call of `ScrapeLocalFile` that returns leaves the counter at 0 and the
rest of the controller as it was. -/
theorem ScrapeLocalFile_sc (TLDS : List Char → Bool) (web : Web) (fuel : Nat) :
    ∀ (hostname localFilename : List Char) (st : CrawlState)
      (r : Option (List Char) × CrawlState),
      ScrapeLocalFile TLDS web fuel hostname localFilename st = .done r →
      r.2.sc = { st.sc with currentLevel := 0 } := by
  induction fuel with
  | zero =>
    intro hostname localFilename st r h
    simp [ScrapeLocalFile] at h
  | succ n ih =>
    intro hostname localFilename st r h
    rw [ScrapeLocalFile] at h
    unfold ScrapeLocalFileWith at h
    split at h
    · simp at h
    · rename_i s1 b hs
      dsimp only at h
      split at h
      · rename_i st1 hd
        simp only [Run.done.injEq] at h
        subst h
        have hc := dispatch_config _ (ScrapeSiteWith_sc web _ ih) _ _ _ hd
        cases hsc : st1.sc
        cases hsc0 : st.sc
        simp only [hsc, hsc0] at hc
        simp [hsc, hc.1, hc.2]
      · simp at h
      · simp at h

theorem ScrapeSite_sc (TLDS : List Char → Bool) (web : Web) (fuel : Nat)
    (targetSite : List Char) (st : CrawlState) (r : Option (List Char) × CrawlState)
    (hr : ScrapeSite TLDS web fuel targetSite st = .done r) :
    r.2.sc = st.sc ∨ r.2.sc = { st.sc with currentLevel := 0 } :=
  ScrapeSiteWith_sc web _ (ScrapeLocalFile_sc TLDS web fuel) targetSite st r hr

/-- C8: with `maxLevel = 1` and `currentLevel = 0` on entry, on a list of
classified records whose first record marked `follow` is `u`, and when the call
`ScrapeSite(u.url)` returns, the dispatch loop of `ScrapeLocalFile` is that one
call of `ScrapeSite` (made after the records before `u` have been printed),
followed by printing only: no later record is passed to `ScrapeSite`, whatever
its `follow` flag, so the requests made are those made up to the return of that
call. -/
theorem dispatch_first_follow_only (TLDS : List Char → Bool) (web : Web) (fuel : Nat)
    (pre post : List DiscoveredUrl) (u : DiscoveredUrl) (st : CrawlState)
    (r : Option (List Char) × CrawlState)
    (hmax : st.sc.maxLevel = 1) (hcur : st.sc.currentLevel = 0)
    (hpre : ∀ x ∈ pre, x.follow = false) (hu : u.follow = true)
    (hret : ScrapeSite TLDS web fuel u.url (printAws pre st) = .done r) :
    dispatch (ScrapeSite TLDS web fuel) (pre ++ u :: post) st =
      .done (printAws (u :: post) { r.2 with sc := { st.sc with currentLevel := 1 } }) ∧
    (printAws (u :: post) { r.2 with sc := { st.sc with currentLevel := 1 } }).requests =
      r.2.requests := by
  refine ⟨?_, rfl⟩
  have hsc : r.2.sc = st.sc := by
    rcases ScrapeSite_sc TLDS web fuel _ _ _ hret with h | h
    · rw [h, printAws_sc]
    · rw [h, printAws_sc]
      cases hs : st.sc
      rw [hs] at hcur
      simp only at hcur
      simp [hcur]
  have key : ∀ s1 s2 : CrawlState, s1 = s2 → s2.sc.maxLevel ≤ s2.sc.currentLevel →
      dispatch (ScrapeSite TLDS web fuel) post s1 = .done (printAws post s2) := by
    intro s1 s2 h12 hm
    subst h12
    exact dispatch_at_max _ _ _ hm
  rw [dispatch_skip _ _ _ _ hpre, dispatch]
  simp only [hu, if_true, printAws_sc, hmax, hcur, show (0 : Int) < 1 by decide, hret]
  rw [printAws_cons]
  apply key
  · cases u.aws <;> simp [hsc, hcur, hmax]
  · cases u.aws <;> simp [hmax]

theorem dispatch_first_follow_only_witness :
    dispatch (ScrapeSite (onlyTld "io".toList) chainWeb 2) threeScripts
        (startState (oneFile "root".toList [])) =
      .done { sc := { verboseLevel := 0, maxLevel := 1, currentLevel := 1 }
              files := afterFirstScript.files
              stdout := ["aws.io".toList]
              requests := ["http://a.io/c.js".toList] } ∧
    (printAws threeScripts
        { afterFirstScript with sc := { verboseLevel := 0, maxLevel := 1, currentLevel := 1 } }
      ).requests = ["http://a.io/c.js".toList] :=
  dispatch_first_follow_only (onlyTld "io".toList) chainWeb 2 [] (threeScripts.drop 1)
    { url := "a.io/c.js".toList, hostname := "a.io".toList, follow := true, aws := false,
      awsService := [] }
    (startState (oneFile "root".toList [])) (none, afterFirstScript)
    rfl rfl (by simp) rfl (by rfl)

/-! ## The matcher and the language -/

namespace Regex

theorem starEnds_sound (r : Regex) (step : List Char → List (List Char))
    (hstep : ∀ s t, t ∈ step s → ∃ w, s = w ++ t ∧ Lang r w) (k : Nat) :
    ∀ s t, t ∈ starEnds step k s → ∃ w, s = w ++ t ∧ Lang (star r) w := by
  induction k with
  | zero =>
    intro s t h
    simp only [starEnds, List.mem_singleton] at h
    exact ⟨[], by simp [h], Lang.starNil⟩
  | succ k ih =>
    intro s t h
    simp only [starEnds, List.mem_append, List.mem_flatMap, List.mem_filter,
      List.mem_singleton] at h
    rcases h with ⟨u, ⟨hu, _⟩, ht⟩ | h
    · obtain ⟨w1, e1, l1⟩ := hstep s u hu
      obtain ⟨w2, e2, l2⟩ := ih u t ht
      exact ⟨w1 ++ w2, by rw [e1, e2, List.append_assoc], Lang.starCons l1 l2⟩
    · exact ⟨[], by simp [h], Lang.starNil⟩

/-- Soundness of the matcher: what it consumes is a word of the language. -/
theorem ends_sound (n : Nat) (r : Regex) :
    ∀ s t, t ∈ ends n r s → ∃ w, s = w ++ t ∧ Lang r w := by
  induction r with
  | empty =>
    intro s t h
    simp only [ends, List.mem_singleton] at h
    exact ⟨[], by simp [h], Lang.empty⟩
  | cls neg ranges =>
    intro s t h
    cases s with
    | nil => simp [ends] at h
    | cons c s1 =>
      simp only [ends] at h
      split at h
      · rename_i hc
        simp only [List.mem_singleton] at h
        exact ⟨[c], by simp [h], Lang.cls hc⟩
      · simp at h
  | bot =>
    intro s t h
    simp only [ends] at h
    split at h
    · simp only [List.mem_singleton] at h
      exact ⟨[], by simp [h], Lang.bot⟩
    · simp at h
  | eot =>
    intro s t h
    cases s with
    | nil =>
      simp only [ends, List.mem_singleton] at h
      exact ⟨[], by simp [h], Lang.eot⟩
    | cons c s1 => simp [ends] at h
  | cat a b iha ihb =>
    intro s t h
    simp only [ends, List.mem_flatMap] at h
    obtain ⟨u, hu, ht⟩ := h
    obtain ⟨w1, e1, l1⟩ := iha s u hu
    obtain ⟨w2, e2, l2⟩ := ihb u t ht
    exact ⟨w1 ++ w2, by rw [e1, e2, List.append_assoc], Lang.cat l1 l2⟩
  | alt a b iha ihb =>
    intro s t h
    simp only [ends, List.mem_append] at h
    rcases h with h | h
    · obtain ⟨w, e, l⟩ := iha s t h
      exact ⟨w, e, Lang.altL l⟩
    · obtain ⟨w, e, l⟩ := ihb s t h
      exact ⟨w, e, Lang.altR l⟩
  | star r ih =>
    intro s t h
    simp only [ends] at h
    exact starEnds_sound r _ ih _ s t h

/-- More fuel than the length of the text changes nothing. -/
theorem starEnds_fuel (step : List Char → List (List Char)) (k1 : Nat) :
    ∀ (k2 : Nat) (s : List Char), s.length ≤ k1 → s.length ≤ k2 →
      starEnds step k1 s = starEnds step k2 s := by
  induction k1 with
  | zero =>
    intro k2 s h1 _
    have hs : s.length = 0 := Nat.le_zero.mp h1
    cases k2 with
    | zero => rfl
    | succ k2 =>
      simp only [starEnds, hs, Nat.not_lt_zero, decide_False, List.filter_false,
        List.flatMap_nil, List.nil_append]
  | succ k1 ih =>
    intro k2 s h1 h2
    cases k2 with
    | zero =>
      have hs : s.length = 0 := Nat.le_zero.mp h2
      simp only [starEnds, hs, Nat.not_lt_zero, decide_False, List.filter_false,
        List.flatMap_nil, List.nil_append]
    | succ k2 =>
      simp only [starEnds]
      congr 1
      apply List.flatMap_congr
      intro t ht
      simp only [List.mem_filter, decide_eq_true_eq] at ht
      exact ih k2 t (by omega) (by omega)

/-- The greedy star, unfolded once. -/
theorem ends_star (n : Nat) (r : Regex) (s : List Char) :
    ends n (star r) s =
      ((ends n r s).filter (fun t => decide (t.length < s.length))).flatMap
        (fun t => ends n (star r) t) ++ [s] := by
  cases hs : s.length with
  | zero =>
    simp only [ends, hs, starEnds, Nat.not_lt_zero, decide_False, List.filter_false,
      List.flatMap_nil, List.nil_append]
  | succ k =>
    simp only [ends, hs, starEnds]
    congr 1
    rw [← hs]
    apply List.flatMap_congr
    intro t ht
    simp only [List.mem_filter, decide_eq_true_eq] at ht
    exact starEnds_fuel _ k _ t (by omega) (Nat.le_refl _)

/-- Completeness of the matcher for expressions without anchors. -/
theorem ends_complete (n : Nat) {r : Regex} {w : List Char} (h : Lang r w) :
    anchorFree r = true → ∀ t, t ∈ ends n r (w ++ t) := by
  induction h with
  | empty => intro _ t; simp [ends]
  | cls hc => intro _ t; simp [ends, hc]
  | bot => intro ha; simp [anchorFree] at ha
  | eot => intro ha; simp [anchorFree] at ha
  | cat _ _ iha ihb =>
    intro ha t
    simp only [anchorFree, Bool.and_eq_true] at ha
    simp only [ends, List.mem_flatMap, List.append_assoc]
    exact ⟨_, iha ha.1 _, ihb ha.2 t⟩
  | altL _ ih =>
    intro ha t
    simp only [anchorFree, Bool.and_eq_true] at ha
    simp only [ends, List.mem_append]
    exact Or.inl (ih ha.1 t)
  | altR _ ih =>
    intro ha t
    simp only [anchorFree, Bool.and_eq_true] at ha
    simp only [ends, List.mem_append]
    exact Or.inr (ih ha.2 t)
  | starNil =>
    intro _ t
    rw [ends_star]
    simp
  | @starCons r u v _ _ ihu ihv =>
    intro ha t
    cases u with
    | nil => simpa using ihv ha t
    | cons c u1 =>
      rw [ends_star]
      simp only [List.mem_append, List.mem_flatMap, List.mem_filter, decide_eq_true_eq,
        List.mem_singleton]
      left
      refine ⟨v ++ t, ⟨?_, ?_⟩, ihv ha t⟩
      · have := ihu (by simpa [anchorFree] using ha) (v ++ t)
        simpa [List.append_assoc] using this
      · simp
        omega

end Regex

/-! ## Inversion of the language -/

namespace Regex

theorem Lang_empty_inv {w : List Char} (h : Lang empty w) : w = [] := by
  cases h; rfl

theorem Lang_cls_inv {neg : Bool} {ranges : List (Char × Char)} {w : List Char}
    (h : Lang (cls neg ranges) w) : ∃ c, w = [c] ∧ inClass neg ranges c = true := by
  cases h with
  | cls hc => exact ⟨_, rfl, hc⟩

theorem Lang_cat_inv {a b : Regex} {w : List Char} (h : Lang (cat a b) w) :
    ∃ u v, w = u ++ v ∧ Lang a u ∧ Lang b v := by
  cases h with
  | cat ha hb => exact ⟨_, _, rfl, ha, hb⟩

theorem Lang_alt_inv {a b : Regex} {w : List Char} (h : Lang (alt a b) w) :
    Lang a w ∨ Lang b w := by
  cases h with
  | altL ha => exact Or.inl ha
  | altR hb => exact Or.inr hb

/-- Induction over the iterations of a star. -/
theorem Lang_star_induction {r : Regex} {P : List Char → Prop} (hnil : P [])
    (hcons : ∀ u v, Lang r u → Lang (star r) v → P v → P (u ++ v)) {w : List Char}
    (h : Lang (star r) w) : P w := by
  generalize hq : star r = q at h
  induction h with
  | empty => cases hq
  | cls _ => cases hq
  | bot => cases hq
  | eot => cases hq
  | cat _ _ _ _ => cases hq
  | altL _ _ => cases hq
  | altR _ _ => cases hq
  | starNil => exact hnil
  | starCons hu hv _ ihv =>
    cases hq
    exact hcons _ _ hu hv (ihv rfl)

theorem Lang_star_cls {neg : Bool} {ranges : List (Char × Char)} {w : List Char}
    (h : Lang (star (cls neg ranges)) w) : ∀ c ∈ w, inClass neg ranges c = true := by
  refine Lang_star_induction (P := fun w => ∀ c ∈ w, inClass neg ranges c = true) ?_ ?_ h
  · intro c hc; simp at hc
  · intro u v hu _ ih c hc
    obtain ⟨d, rfl, hd⟩ := Lang_cls_inv hu
    simp only [List.singleton_append, List.mem_cons] at hc
    rcases hc with rfl | hc
    · exact hd
    · exact ih c hc

theorem Lang_plus_cls {neg : Bool} {ranges : List (Char × Char)} {w : List Char}
    (h : Lang (plus (cls neg ranges)) w) :
    w ≠ [] ∧ ∀ c ∈ w, inClass neg ranges c = true := by
  obtain ⟨u, v, rfl, hu, hv⟩ := Lang_cat_inv h
  obtain ⟨d, rfl, hd⟩ := Lang_cls_inv hu
  refine ⟨by simp, ?_⟩
  intro c hc
  simp only [List.singleton_append, List.mem_cons] at hc
  rcases hc with rfl | hc
  · exact hd
  · exact Lang_star_cls hv c hc

/-- Every word of characters of a class is matched by the star of the class. -/
theorem Lang_star_cls_of_all {neg : Bool} {ranges : List (Char × Char)} (w : List Char)
    (h : ∀ c ∈ w, inClass neg ranges c = true) : Lang (star (cls neg ranges)) w := by
  induction w with
  | nil => exact Lang.starNil
  | cons c w ih =>
    have h1 : Lang (cls neg ranges) [c] := Lang.cls (h c (List.mem_cons_self _ _))
    have h2 := ih (fun d hd => h d (List.mem_cons_of_mem _ hd))
    exact Lang.starCons h1 h2

theorem Lang_plus_cls_of_all {neg : Bool} {ranges : List (Char × Char)} (w : List Char)
    (hne : w ≠ []) (h : ∀ c ∈ w, inClass neg ranges c = true) :
    Lang (plus (cls neg ranges)) w := by
  cases w with
  | nil => exact absurd rfl hne
  | cons c w =>
    have h1 : Lang (cls neg ranges) [c] := Lang.cls (h c (List.mem_cons_self _ _))
    have h2 := Lang_star_cls_of_all w (fun d hd => h d (List.mem_cons_of_mem _ hd))
    exact Lang.cat h1 h2

end Regex

/-! ## The shape of hostnames -/

/-- The first occurrence of a character splits a text in one way only. -/
theorem first_occurrence_unique (c : Char) :
    ∀ (y1 y2 t1 t2 : List Char), (∀ d ∈ y1, d ≠ c) → (∀ d ∈ y2, d ≠ c) →
      y1 ++ c :: t1 = y2 ++ c :: t2 → y1 = y2 ∧ t1 = t2 := by
  intro y1
  induction y1 with
  | nil =>
    intro y2 t1 t2 _ h2 e
    cases y2 with
    | nil => simpa using e
    | cons d y2 =>
      simp only [List.nil_append, List.cons_append, List.cons.injEq] at e
      exact absurd e.1.symm (h2 d (List.mem_cons_self _ _))
  | cons a y1 ih =>
    intro y2 t1 t2 h1 h2 e
    cases y2 with
    | nil =>
      simp only [List.nil_append, List.cons_append, List.cons.injEq] at e
      exact absurd e.1 (h1 a (List.mem_cons_self _ _))
    | cons d y2 =>
      simp only [List.cons_append, List.cons.injEq] at e
      obtain ⟨e1, e2⟩ := ih y2 t1 t2 (fun x hx => h1 x (List.mem_cons_of_mem _ hx))
        (fun x hx => h2 x (List.mem_cons_of_mem _ hx)) e.2
      exact ⟨by rw [e.1, e1], e2⟩

theorem alnum_ne_dot (c : Char) (h : inClass false [('a', 'z'), ('A', 'Z'), ('0', '9')] c = true) :
    c ≠ '.' := by
  rintro rfl
  revert h
  decide

theorem alpha_ne_dot (c : Char) (h : inClass false [('a', 'z'), ('A', 'Z')] c = true) :
    c ≠ '.' := by
  rintro rfl
  revert h
  decide

theorem dash_ne_dot (c : Char) (h : inClass false [('-', '-')] c = true) : c ≠ '.' := by
  rintro rfl
  revert h
  decide

/-- Dashes followed by label parts have no dot. -/
theorem Lang_dashPart_noDot {ranges : List (Char × Char)} {w : List Char}
    (hcls : ∀ c, inClass false ranges c = true → c ≠ '.')
    (h : Lang (star (concatOf [lit '-', plus (cls false ranges)])) w) : ∀ c ∈ w, c ≠ '.' := by
  refine Lang_star_induction (P := fun w => ∀ c ∈ w, c ≠ '.') ?_ ?_ h
  · intro c hc; simp at hc
  · intro u v hu _ ih c hc
    obtain ⟨u1, u2, rfl, h1, h2⟩ := Lang_cat_inv hu
    obtain ⟨d, rfl, hd⟩ := Lang_cls_inv h1
    have h3 := (Lang_plus_cls h2).2
    simp only [List.singleton_append, List.cons_append, List.mem_cons, List.mem_append,
      List.nil_append, List.mem_nil_iff, false_or] at hc
    rcases hc with rfl | hc | hc
    · exact dash_ne_dot _ hd
    · exact hcls _ (h3 c hc)
    · exact ih c hc

/-- A word of `labelDot` is a text without a dot, and a dot. -/
theorem Lang_labelDot_shape {g : List Char} (h : Lang labelDot g) :
    ∃ y, g = y ++ ['.'] ∧ ∀ c ∈ y, c ≠ '.' := by
  obtain ⟨u, v, rfl, hu, hv⟩ := Lang_cat_inv h
  obtain ⟨v1, v2, rfl, hv1, hv2⟩ := Lang_cat_inv hv
  obtain ⟨d, rfl, hd⟩ := Lang_cls_inv hv2
  have hdot : d = '.' := by
    simp only [inClass, List.any_cons, List.any_nil, Bool.or_false, Bool.false_bne,
      Bool.and_eq_true, decide_eq_true_eq] at hd
    apply Char.ext
    apply UInt32.ext
    have : d.val.toNat = d.toNat := rfl
    have h2 : ('.' : Char).toNat = 46 := rfl
    have h3 : ('.' : Char).val.toNat = 46 := rfl
    omega
  subst hdot
  refine ⟨u ++ v1, by simp, ?_⟩
  intro c hc
  simp only [List.mem_append] at hc
  rcases hc with hc | hc
  · exact alnum_ne_dot _ ((Lang_plus_cls hu).2 c hc)
  · exact Lang_dashPart_noDot alnum_ne_dot hv1 c hc

theorem Lang_star_labelDot_shape {v : List Char} (h : Lang (star labelDot) v) :
    v = [] ∨ ∃ y, v = y ++ ['.'] := by
  refine Lang_star_induction (P := fun v => v = [] ∨ ∃ y, v = y ++ ['.']) ?_ ?_ h
  · exact Or.inl rfl
  · intro u v hu _ ih
    right
    rcases ih with rfl | ⟨y, rfl⟩
    · obtain ⟨y, rfl, _⟩ := Lang_labelDot_shape hu
      exact ⟨y, by simp⟩
    · exact ⟨u ++ y, by simp⟩

theorem Lang_plus_labelDot_shape {x : List Char} (h : Lang (plus labelDot) x) :
    ∃ y, x = y ++ ['.'] := by
  obtain ⟨u, v, rfl, hu, hv⟩ := Lang_cat_inv h
  rcases Lang_star_labelDot_shape hv with rfl | ⟨y, rfl⟩
  · obtain ⟨y, rfl, _⟩ := Lang_labelDot_shape hu
    exact ⟨y, by simp⟩
  · exact ⟨u ++ y, by simp⟩

/-- A word of `hostnameRegex` is a marker, a text, a dot and a final label of
letters. -/
theorem Lang_hostnameRegex_shape {p : List Char} (h : Lang hostnameRegex p) :
    ∃ m y f, p = m :: (y ++ '.' :: f) ∧ (m = dquote ∨ m = squote ∨ m = '/') ∧ f ≠ [] ∧
      ∀ c ∈ f, inClass false [('a', 'z'), ('A', 'Z')] c = true := by
  obtain ⟨u, v, rfl, hu, hv⟩ := Lang_cat_inv h
  obtain ⟨x, f, rfl, hx, hf⟩ := Lang_cat_inv hv
  obtain ⟨m, rfl, hm⟩ := Lang_cls_inv hu
  obtain ⟨y, rfl⟩ := Lang_plus_labelDot_shape hx
  obtain ⟨hne, hall⟩ := Lang_plus_cls hf
  refine ⟨m, y, f, by simp, ?_, hne, hall⟩
  simp only [inClass, List.any_cons, List.any_nil, Bool.or_false, Bool.false_bne,
    Bool.or_eq_true, Bool.and_eq_true, decide_eq_true_eq] at hm
  have key : ∀ a b : Char, a.toNat ≤ b.toNat → b.toNat ≤ a.toNat → b = a := by
    intro a b h1 h2
    apply Char.ext
    apply UInt32.ext
    have e1 : a.val.toNat = a.toNat := rfl
    have e2 : b.val.toNat = b.toNat := rfl
    omega
  rcases hm with hm | hm | hm
  · exact Or.inl (key _ _ hm.1 hm.2)
  · exact Or.inr (Or.inl (key _ _ hm.1 hm.2))
  · exact Or.inr (Or.inr (key _ _ hm.1 hm.2))

/-! ## Searching -/

namespace Regex

theorem between_append (w e : List Char) : between (w ++ e) e = w := by
  simp [between]

theorem find_head {n : Nat} {r : Regex} {s e : List Char} (h : (ends n r s).head? = some e) :
    find n r s = some (s, e) := by
  cases s with
  | nil => simp [find, h]
  | cons c s => simp [find, h]

theorem find_skip {n : Nat} {r : Regex} {c : Char} {s : List Char}
    (h : ends n r (c :: s) = []) : find n r (c :: s) = find n r s := by
  simp [find, h]

/-- What `find` returns is the first end of a match at the position found. -/
theorem find_spec (n : Nat) (r : Regex) :
    ∀ (s b e : List Char), find n r s = some (b, e) →
      (ends n r b).head? = some e ∧ ∃ p, s = p ++ b := by
  intro s
  induction s with
  | nil =>
    intro b e h
    simp only [find, Option.map_eq_some', Prod.mk.injEq] at h
    obtain ⟨a, ha, rfl, rfl⟩ := h
    exact ⟨ha, [], rfl⟩
  | cons c s ih =>
    intro b e h
    simp only [find] at h
    split at h
    · rename_i e1 he1
      simp only [Option.some.injEq, Prod.mk.injEq] at h
      obtain ⟨rfl, rfl⟩ := h
      exact ⟨he1, [], rfl⟩
    · obtain ⟨h1, p, hp⟩ := ih b e h
      exact ⟨h1, c :: p, by simp [hp]⟩

theorem mem_of_head? {α : Type} {l : List α} {a : α} (h : l.head? = some a) : a ∈ l := by
  cases l with
  | nil => simp at h
  | cons x l =>
    simp only [List.head?_cons, Option.some.injEq] at h
    simp [h]

theorem head?_isSome_of_mem {α : Type} {l : List α} {a : α} (h : a ∈ l) :
    ∃ b, l.head? = some b := by
  cases l with
  | nil => simp at h
  | cons x l => exact ⟨x, rfl⟩

/-- Every match listed by the scan is the text in front of an end of a match. -/
theorem allMatches_mem (r : Regex) (n : Nat) (fuel : Nat) :
    ∀ (s : List Char) (prevEnd : Option Nat) (x : List Char),
      x ∈ allMatches r n fuel s prevEnd → ∃ e, e ∈ ends n r (x ++ e) := by
  induction fuel with
  | zero => intro s prevEnd x h; simp [allMatches] at h
  | succ k ih =>
    intro s prevEnd x h
    rw [allMatches] at h
    split at h
    · simp at h
    · rename_i b e hfind
      obtain ⟨hhead, p, hp⟩ := find_spec n r s b e hfind
      have hmem := mem_of_head? hhead
      obtain ⟨w, hw, _⟩ := ends_sound n r b e hmem
      by_cases hlen : e.length = s.length
      · rw [if_pos hlen] at h
        have hwnil : w = [] := by
          have h1 : s.length = p.length + (w.length + e.length) := by
            rw [hp, hw]; simp
          have : w.length = 0 := by omega
          exact List.length_eq_zero.mp this
        subst hwnil
        simp only [List.nil_append] at hw
        subst hw
        have hb : b ∈ ends n r ([] ++ b) := by simpa using hmem
        cases s with
        | nil =>
          simp only at h
          split at h
          · simp at h
          · simp only [List.mem_singleton] at h
            subst h
            exact ⟨b, hb⟩
        | cons c t =>
          simp only at h
          split at h
          · exact ih _ _ _ h
          · simp only [List.mem_cons] at h
            rcases h with rfl | h
            · exact ⟨b, hb⟩
            · exact ih _ _ _ h
      · rw [if_neg hlen] at h
        simp only [List.mem_cons] at h
        rcases h with rfl | h
        · refine ⟨e, ?_⟩
          rw [hw, between_append]
          rw [← hw]
          exact hmem
        · exact ih _ _ _ h

theorem FindAllString_mem (r : Regex) (s x : List Char) (h : x ∈ FindAllString r s) :
    ∃ e, e ∈ ends s.length r (x ++ e) :=
  allMatches_mem r _ _ _ _ x h

end Regex

/-! ## The trailing label -/

theorem takeWhile_stop {p : Char → Bool} (a : List Char) (c : Char) (b : List Char)
    (ha : ∀ d ∈ a, p d = true) (hc : p c = false) : (a ++ c :: b).takeWhile p = a := by
  induction a with
  | nil => simp [List.takeWhile, hc]
  | cons d a ih =>
    have hd : p d = true := ha d (List.mem_cons_self _ _)
    simp only [List.cons_append, List.takeWhile_cons, hd, if_true, List.cons.injEq, true_and]
    exact ih (fun x hx => ha x (List.mem_cons_of_mem _ hx))

/-- The trailing label of a text that ends in a dot and a text without dot. -/
theorem trailingLabel_eq (y f : List Char) (hf : ∀ c ∈ f, c ≠ '.') :
    trailingLabel (y ++ '.' :: f) = f := by
  unfold trailingLabel
  have e : (y ++ '.' :: f).reverse = f.reverse ++ '.' :: y.reverse := by simp
  rw [e, takeWhile_stop]
  · simp
  · intro d hd
    simp only [List.mem_reverse] at hd
    simpa using hf d hd
  · simp

/-! ## The pattern of the trailing label -/

theorem tldPattern_ends_nil (n : Nat) (s t : List Char) (h : t ∈ ends n tldPattern s) :
    t = [] := by
  simp only [tldPattern, concatOf, ends, List.mem_flatMap] at h
  obtain ⟨_, _, u, _, ht⟩ := h
  cases u with
  | nil => simpa [ends] using ht
  | cons c u => simp [ends] at ht

theorem Lang_tldLabel_noDot {w : List Char}
    (h : Lang (concatOf [plus alphaCls, star (concatOf [lit '-', plus alphaCls])]) w) :
    ∀ c ∈ w, c ≠ '.' := by
  obtain ⟨u, v, rfl, hu, hv⟩ := Lang_cat_inv h
  intro c hc
  simp only [List.mem_append] at hc
  rcases hc with hc | hc
  · exact alpha_ne_dot _ ((Lang_plus_cls hu).2 c hc)
  · exact Lang_dashPart_noDot alpha_ne_dot hv c hc

/-- The pattern does not match at a position that has a dot further on. -/
theorem tldPattern_no_match (n : Nat) (c : Char) (pre f : List Char) :
    ends n tldPattern (c :: (pre ++ '.' :: f)) = [] := by
  apply List.eq_nil_iff_forall_not_mem.mpr
  intro t h
  simp only [tldPattern, concatOf, List.mem_flatMap] at h
  rw [ends] at h
  simp only [List.mem_flatMap] at h
  obtain ⟨u1, hu1, h2⟩ := h
  rw [ends] at h2
  simp only [List.mem_flatMap] at h2
  obtain ⟨u2, hu2, h3⟩ := h2
  have hu1e : u1 = pre ++ '.' :: f := by
    simp only [lit, ends] at hu1
    split at hu1
    · simpa using hu1
    · simp at hu1
  subst hu1e
  have hu2e : u2 = [] := by
    cases u2 with
    | nil => rfl
    | cons d u2 => simp [ends] at h3
  subst hu2e
  obtain ⟨w, hw, hl⟩ := ends_sound n _ _ _ hu2
  simp only [List.append_nil] at hw
  have := Lang_tldLabel_noDot hl '.' (by rw [← hw]; simp)
  exact this rfl

/-- In a text that ends in a dot and letters, the pattern finds that ending. -/
theorem tldPattern_find (n : Nat) (f : List Char) (hne : f ≠ [])
    (hf : ∀ c ∈ f, inClass false [('a', 'z'), ('A', 'Z')] c = true) :
    ∀ pre : List Char, find n tldPattern (pre ++ '.' :: f) = some ('.' :: f, []) := by
  intro pre
  induction pre with
  | nil =>
    rw [List.nil_append]
    apply find_head
    have hmem : ([] : List Char) ∈ ends n tldPattern ('.' :: f) := by
      simp only [tldPattern, concatOf]
      rw [ends]
      simp only [List.mem_flatMap]
      refine ⟨f, by simp [lit, ends, inClass], ?_⟩
      rw [ends]
      simp only [List.mem_flatMap]
      refine ⟨[], ?_, by simp [ends]⟩
      have hl : Lang (concatOf [plus alphaCls, star (concatOf [lit '-', plus alphaCls])])
          (f ++ []) := Lang.cat (Lang_plus_cls_of_all f hne hf) Lang.starNil
      have := ends_complete n hl (by decide) []
      simpa using this
    obtain ⟨b, hb⟩ := head?_isSome_of_mem hmem
    rw [hb, tldPattern_ends_nil n _ b (mem_of_head? hb)]
  | cons c pre ih =>
    rw [List.cons_append, find_skip (tldPattern_no_match n c pre f)]
    exact ih

theorem tldPattern_FindString (m : Char) (y f : List Char) (hne : f ≠ [])
    (hf : ∀ c ∈ f, inClass false [('a', 'z'), ('A', 'Z')] c = true) :
    tldPattern.FindString (m :: (y ++ '.' :: f)) = '.' :: f := by
  unfold FindString
  have := tldPattern_find (m :: (y ++ '.' :: f)).length f hne hf (m :: y)
  simp only [List.cons_append] at this
  rw [this]
  simp [between]

/-! ## Extraction of URLs -/

theorem mem_ends_cat (n : Nat) (a b : Regex) (s t : List Char) :
    t ∈ ends n (cat a b) s ↔ ∃ u, u ∈ ends n a s ∧ t ∈ ends n b u := by
  simp [ends]

theorem urlRegex_eq :
    urlRegex = cat markerCls (cat (plus labelDot) (cat (plus alphaCls) (opt urlTail))) := rfl

theorem hostnameRegex_eq :
    hostnameRegex = cat markerCls (cat (plus labelDot) (plus alphaCls)) := rfl

/-- At the beginning of a match of `urlRegex`, `hostnameRegex` finds a marker,
a text, a dot and a final label of letters. -/
theorem hostname_of_match (n : Nat) (x e : List Char) (h : e ∈ ends n urlRegex (x ++ e)) :
    ∃ m y f rest, hostnameRegex.FindString x = m :: (y ++ '.' :: f) ∧
      x = m :: (y ++ '.' :: f) ++ rest ∧ (m = dquote ∨ m = squote ∨ m = '/') ∧ f ≠ [] ∧
      ∀ c ∈ f, inClass false [('a', 'z'), ('A', 'Z')] c = true := by
  rw [urlRegex_eq, mem_ends_cat] at h
  obtain ⟨u1, hu1, h⟩ := h
  rw [mem_ends_cat] at h
  obtain ⟨u2, hu2, h⟩ := h
  rw [mem_ends_cat] at h
  obtain ⟨u3, hu3, he⟩ := h
  have hhost : u3 ∈ ends n hostnameRegex (x ++ e) := by
    rw [hostnameRegex_eq, mem_ends_cat]
    refine ⟨u1, hu1, ?_⟩
    rw [mem_ends_cat]
    exact ⟨u2, hu2, hu3⟩
  obtain ⟨p, hp, hl⟩ := ends_sound n hostnameRegex _ _ hhost
  obtain ⟨q, hq, _⟩ := ends_sound n _ _ _ he
  have hx : x = p ++ q := by
    have hxe : x ++ e = (p ++ q) ++ e := by rw [hp, hq, List.append_assoc]
    exact List.append_cancel_right hxe
  have hq2 : q ∈ ends x.length hostnameRegex x := by
    have := ends_complete x.length hl (by decide) q
    rw [← hx] at this
    exact this
  obtain ⟨e1, he1⟩ := head?_isSome_of_mem hq2
  obtain ⟨p1, hp1, hl1⟩ := ends_sound x.length hostnameRegex _ _ (mem_of_head? he1)
  obtain ⟨m, y, f, hshape, hm, hne, hf⟩ := Lang_hostnameRegex_shape hl1
  refine ⟨m, y, f, e1, ?_, ?_, hm, hne, hf⟩
  · unfold FindString
    rw [find_head he1]
    simp only
    conv => lhs; rw [hp1]
    rw [between_append, hshape]
  · rw [← hshape]
    exact hp1

/-- The loop body on a match of `urlRegex`: no index is out of range, and a
record is made exactly when the trailing label of the hostname is in the
registry. -/
theorem extractUrl_of_match (TLDS : List Char → Bool) (n : Nat) (x e : List Char)
    (h : e ∈ ends n urlRegex (x ++ e)) : extractUrl TLDS x = some (recordOf TLDS x) := by
  obtain ⟨m, y, f, rest, hFS, hx, hm, hne, hf⟩ := hostname_of_match n x e h
  have hT := tldPattern_FindString m y f hne hf
  have hlabel : trailingLabel (y ++ '.' :: f) = f :=
    trailingLabel_eq y f (fun c hc => alpha_ne_dot c (hf c hc))
  unfold extractUrl recordOf
  simp only [hFS, hT, List.drop_succ_cons, List.drop_zero, hlabel]
  rw [hx]
  cases hreg : TLDS f
  · simp
  · simp [hm]

theorem extractUrls_eq (TLDS : List Char → Bool) (n : Nat) :
    ∀ (cands : List (List Char)) (scraper : Scraper),
      (∀ x ∈ cands, ∃ e, e ∈ ends n urlRegex (x ++ e)) →
      extractUrls TLDS cands scraper =
        some { scraper with
          discoveredUrls := scraper.discoveredUrls ++ cands.filterMap (recordOf TLDS) } := by
  intro cands
  induction cands with
  | nil => intro scraper _; simp [extractUrls]
  | cons x cands ih =>
    intro scraper h
    obtain ⟨e, he⟩ := h x (List.mem_cons_self _ _)
    have hrest : ∀ z ∈ cands, ∃ e, e ∈ ends n urlRegex (z ++ e) :=
      fun z hz => h z (List.mem_cons_of_mem _ hz)
    rw [extractUrls, extractUrl_of_match TLDS n x e he]
    cases hrec : recordOf TLDS x with
    | none =>
      simp only [List.filterMap_cons, hrec]
      exact ih scraper hrest
    | some u =>
      simp only [List.filterMap_cons, hrec]
      rw [ih _ hrest]
      simp

/-- What `extractHostnamesIps` does to a scraper, without the regular
expression of the trailing label. -/
theorem extractHostnamesIps_eq (TLDS : List Char → Bool) (scraper : Scraper)
    (line : List Char) :
    extractHostnamesIps TLDS scraper line =
      some { scraper with
        discoveredUrls :=
          scraper.discoveredUrls ++ (urlRegex.FindAllString line).filterMap (recordOf TLDS)
        discoveredIps := scraper.discoveredIps ++ ipPattern.FindAllString line } := by
  unfold extractHostnamesIps
  simp only
  rw [extractUrls_eq TLDS line.length _ _ (fun x hx => FindAllString_mem urlRegex line x hx)]

/-- C3: `extractHostnamesIps` returns, and the records it appends are made of
the matches of `urlRegex` in the chunk, one for each match whose hostname has
a trailing label (the text after its last dot) in the registry and none for a
match whose trailing label is not in the registry; so the hostname of every
appended record has its trailing label in the registry. -/
theorem tld_validation (TLDS : List Char → Bool) (scraper : Scraper) (line : List Char) :
    ∃ scraper1, extractHostnamesIps TLDS scraper line = some scraper1 ∧
      scraper1.discoveredUrls =
        scraper.discoveredUrls ++ (urlRegex.FindAllString line).filterMap (recordOf TLDS) ∧
      (∀ rawUrl ∈ urlRegex.FindAllString line,
        TLDS (trailingLabel ((hostnameRegex.FindString rawUrl).drop 1)) = false →
          recordOf TLDS rawUrl = none) ∧
      ∀ u ∈ (urlRegex.FindAllString line).filterMap (recordOf TLDS),
        TLDS (trailingLabel u.hostname) = true := by
  refine ⟨_, extractHostnamesIps_eq TLDS scraper line, rfl, ?_, ?_⟩
  · intro rawUrl _ hreg
    unfold recordOf
    rw [hreg]
    rfl
  · intro u hu
    simp only [List.mem_filterMap] at hu
    obtain ⟨rawUrl, _, hrec⟩ := hu
    unfold recordOf at hrec
    split at hrec
    · rename_i hreg
      simp only [Option.some.injEq] at hrec
      subst hrec
      exact hreg
    · simp at hrec

/-! ## The first match in priority order -/

/-- If only the images of `a` can be non-empty, the first element of the images
put together is the first element of the image of `a`. -/
theorem head?_flatMap_unique {α β : Type} {f : α → List β} {a : α} :
    ∀ {l : List α}, a ∈ l → (∀ x ∈ l, x ≠ a → f x = []) →
      (l.flatMap f).head? = (f a).head? := by
  intro l
  induction l with
  | nil => intro ha; simp at ha
  | cons x l ih =>
    intro ha h
    rw [List.flatMap_cons, List.head?_append]
    by_cases hx : x = a
    · subst hx
      cases hfa : (f x).head? with
      | some b => rfl
      | none =>
        have hnil : l.flatMap f = [] := by
          rw [List.flatMap_eq_nil_iff]
          intro y hy
          by_cases hyx : y = x
          · rw [hyx]
            cases hfx : f x with
            | nil => rfl
            | cons b bs => rw [hfx] at hfa; simp at hfa
          · exact h y (List.mem_cons_of_mem _ hy) hyx
        rw [hnil]
        rfl
    · have hfx : f x = [] := h x (List.mem_cons_self _ _) hx
      have hal : a ∈ l := by
        rcases List.mem_cons.mp ha with e | e
        · exact absurd e.symm hx
        · exact e
      rw [hfx, List.head?_nil, Option.none_or]
      exact ih hal (fun y hy => h y (List.mem_cons_of_mem _ hy))

theorem head?_flatMap_head {α β : Type} {f : α → List β} {a : α} {b : β} {l : List α}
    (hl : l.head? = some a) (hf : (f a).head? = some b) : (l.flatMap f).head? = some b := by
  cases l with
  | nil => simp at hl
  | cons x l =>
    simp only [List.head?_cons, Option.some.injEq] at hl
    subst hl
    rw [List.flatMap_cons, List.head?_append, hf]
    rfl

/-- The greedy star of a class takes the whole run of characters of the class. -/
theorem star_cls_head (n : Nat) (neg : Bool) (ranges : List (Char × Char)) (rest : List Char)
    (hrest : ∀ c, rest.head? = some c → inClass neg ranges c = false) :
    ∀ w : List Char, (∀ c ∈ w, inClass neg ranges c = true) →
      (ends n (star (cls neg ranges)) (w ++ rest)).head? = some rest := by
  intro w
  induction w with
  | nil =>
    intro _
    rw [List.nil_append, ends_star]
    cases rest with
    | nil => simp [ends]
    | cons c r =>
      have hc := hrest c rfl
      simp [ends, hc]
  | cons c w ih =>
    intro hw
    have hc : inClass neg ranges c = true := hw c (List.mem_cons_self _ _)
    have h1 := ih (fun d hd => hw d (List.mem_cons_of_mem _ hd))
    rw [List.cons_append, ends_star]
    simp only [ends, hc, if_true, List.length_cons, Nat.lt_succ_self, decide_True,
      List.filter_cons_of_pos, List.filter_nil, List.flatMap_cons, List.flatMap_nil,
      List.append_nil, List.head?_append]
    have h2 : (ends n (star (cls neg ranges)) (w ++ rest)).head? = some rest := h1
    simp only [ends] at h2
    rw [h2]
    rfl

theorem plus_cls_head (n : Nat) (neg : Bool) (ranges : List (Char × Char)) (rest : List Char)
    (hrest : ∀ c, rest.head? = some c → inClass neg ranges c = false)
    (w : List Char) (hne : w ≠ []) (hw : ∀ c ∈ w, inClass neg ranges c = true) :
    (ends n (plus (cls neg ranges)) (w ++ rest)).head? = some rest := by
  cases w with
  | nil => exact absurd rfl hne
  | cons c w =>
    have hc : inClass neg ranges c = true := hw c (List.mem_cons_self _ _)
    have h1 := star_cls_head n neg ranges rest hrest w
      (fun d hd => hw d (List.mem_cons_of_mem _ hd))
    unfold plus
    rw [List.cons_append, ends]
    have e : ends n (cls neg ranges) (c :: (w ++ rest)) = [w ++ rest] := by simp [ends, hc]
    rw [e]
    simpa using h1

/-! ## Labels -/

/-- All matches of `labelDot` at a position end at the first dot. -/
theorem labelDot_ends_unique (n : Nat) (s t1 t2 : List Char) (h1 : t1 ∈ ends n labelDot s)
    (h2 : t2 ∈ ends n labelDot s) : t1 = t2 := by
  obtain ⟨p1, e1, l1⟩ := ends_sound n _ _ _ h1
  obtain ⟨p2, e2, l2⟩ := ends_sound n _ _ _ h2
  obtain ⟨y1, rfl, n1⟩ := Lang_labelDot_shape l1
  obtain ⟨y2, rfl, n2⟩ := Lang_labelDot_shape l2
  have e : y1 ++ '.' :: t1 = y2 ++ '.' :: t2 := by
    have := e1.symm.trans e2
    simpa using this
  exact (first_occurrence_unique '.' y1 y2 t1 t2 n1 n2 e).2

theorem labelDot_ends_noDot (n : Nat) (f : List Char) (hf : ∀ c ∈ f, c ≠ '.') :
    ends n labelDot f = [] := by
  apply List.eq_nil_iff_forall_not_mem.mpr
  intro t h
  obtain ⟨p, e, l⟩ := ends_sound n _ _ _ h
  obtain ⟨y, rfl, _⟩ := Lang_labelDot_shape l
  exact hf '.' (by rw [e]; simp) rfl

/-- After the labels of a hostname the matcher goes on, first of all, from
the final label. -/
theorem star_labelDot_head (n : Nat) (F : List Char → List (List Char)) (f : List Char)
    (hf : ∀ c ∈ f, c ≠ '.') (hF : (F f).head? = some []) {v : List Char}
    (hv : Lang (star labelDot) v) :
    ((ends n (star labelDot) (v ++ f)).flatMap F).head? = some [] := by
  refine Lang_star_induction
    (P := fun v => ((ends n (star labelDot) (v ++ f)).flatMap F).head? = some []) ?_ ?_ hv
  · show ((ends n (star labelDot) ([] ++ f)).flatMap F).head? = some []
    rw [List.nil_append, ends_star, labelDot_ends_noDot n f hf]
    simpa using hF
  · intro u v hu _ ih
    show ((ends n (star labelDot) (u ++ v ++ f)).flatMap F).head? = some []
    obtain ⟨y, hy, _⟩ := Lang_labelDot_shape hu
    have hmem : v ++ f ∈ ends n labelDot (u ++ (v ++ f)) := ends_complete n hu (by decide) _
    have hlen : (v ++ f).length < (u ++ (v ++ f)).length := by
      rw [hy]
      simp only [List.length_append, List.length_singleton]
      omega
    rw [List.append_assoc, ends_star, List.flatMap_append, List.head?_append,
      List.flatMap_assoc]
    have hmem2 : v ++ f ∈ (ends n labelDot (u ++ (v ++ f))).filter
        (fun t => decide (t.length < (u ++ (v ++ f)).length)) := by
      simp only [List.mem_filter, decide_eq_true_eq]
      exact ⟨hmem, hlen⟩
    rw [head?_flatMap_unique hmem2, ih]
    · rfl
    · intro x hx hne
      simp only [List.mem_filter] at hx
      exact absurd (labelDot_ends_unique n _ _ _ hx.1 hmem) hne

theorem plus_labelDot_head (n : Nat) (F : List Char → List (List Char)) (f : List Char)
    (hf : ∀ c ∈ f, c ≠ '.') (hF : (F f).head? = some []) {x : List Char}
    (hx : Lang (plus labelDot) x) :
    ((ends n (plus labelDot) (x ++ f)).flatMap F).head? = some [] := by
  obtain ⟨u, v, rfl, hu, hv⟩ := Lang_cat_inv hx
  have hmem : v ++ f ∈ ends n labelDot (u ++ (v ++ f)) := ends_complete n hu (by decide) _
  unfold plus
  rw [List.append_assoc, ends, List.flatMap_assoc, head?_flatMap_unique hmem]
  · exact star_labelDot_head n F f hf hF hv
  · intro z hz hne
    exact absurd (labelDot_ends_unique n _ _ _ hz hmem) hne

/-- A word the matcher consumes entirely is a word of the language. -/
theorem Lang_of_fullMatch {r : Regex} {w : List Char} (h : fullMatch r w = true) : Lang r w := by
  unfold fullMatch at h
  simp only [List.contains_iff_exists_mem_beq, beq_iff_eq, exists_eq_right'] at h
  obtain ⟨p, e, l⟩ := ends_sound _ _ _ _ h
  simp only [List.append_nil] at e
  rw [e]
  exact l

theorem hostnameGrammar_shape {h : List Char} (hh : Lang hostnameGrammar h) :
    ∃ x f, h = x ++ f ∧ Lang (plus labelDot) x ∧ f ≠ [] ∧
      ∀ c ∈ f, inClass false [('a', 'z'), ('A', 'Z')] c = true := by
  obtain ⟨x, f, rfl, hx, hf⟩ := Lang_cat_inv hh
  exact ⟨x, f, rfl, hx, (Lang_plus_cls hf).1, (Lang_plus_cls hf).2⟩

theorem marker_inClass (m : Char) (hm : m = dquote ∨ m = squote ∨ m = '/') :
    inClass false [(dquote, dquote), (squote, squote), ('/', '/')] m = true := by
  rcases hm with rfl | rfl | rfl <;> decide

/-- On a marker and a hostname, `hostnameRegex` matches everything first. -/
theorem hostnameRegex_head (n : Nat) (m : Char) (h : List Char)
    (hm : m = dquote ∨ m = squote ∨ m = '/') (hh : Lang hostnameGrammar h) :
    (ends n hostnameRegex (m :: h)).head? = some [] := by
  obtain ⟨x, f, rfl, hx, hne, hf⟩ := hostnameGrammar_shape hh
  rw [hostnameRegex_eq, ends]
  have e : ends n markerCls (m :: (x ++ f)) = [x ++ f] := by
    simp [markerCls, ends, marker_inClass m hm]
  rw [e, List.flatMap_singleton, ends]
  apply plus_labelDot_head n _ f (fun c hc => alpha_ne_dot c (hf c hc)) _ hx
  have := plus_cls_head n false [('a', 'z'), ('A', 'Z')] [] (by simp) f hne hf
  simpa [alphaCls] using this

theorem urlTail_ends_nil (n : Nat) : ends n urlTail [] = [] := by
  simp [urlTail, concatOf, ends, starEnds, lit, repeatOf]

/-- On a marker and a hostname, `urlRegex` matches everything first. -/
theorem urlRegex_head (n : Nat) (m : Char) (h : List Char)
    (hm : m = dquote ∨ m = squote ∨ m = '/') (hh : Lang hostnameGrammar h) :
    (ends n urlRegex (m :: h)).head? = some [] := by
  obtain ⟨x, f, rfl, hx, hne, hf⟩ := hostnameGrammar_shape hh
  rw [urlRegex_eq, ends]
  have e : ends n markerCls (m :: (x ++ f)) = [x ++ f] := by
    simp [markerCls, ends, marker_inClass m hm]
  rw [e, List.flatMap_singleton, ends]
  apply plus_labelDot_head n _ f (fun c hc => alpha_ne_dot c (hf c hc)) _ hx
  rw [ends]
  have h1 := plus_cls_head n false [('a', 'z'), ('A', 'Z')] [] (by simp) f hne hf
  simp only [List.append_nil] at h1
  apply head?_flatMap_head h1
  unfold opt
  rw [ends, urlTail_ends_nil]
  rfl

theorem urlRegex_ends_nil (n : Nat) : ends n urlRegex [] = [] := by
  simp [urlRegex_eq, markerCls, ends]

/-- The only match of `urlRegex` in a marker and a hostname is the whole text. -/
theorem urlRegex_FindAllString (m : Char) (h : List Char)
    (hm : m = dquote ∨ m = squote ∨ m = '/') (hh : Lang hostnameGrammar h) :
    urlRegex.FindAllString (m :: h) = [m :: h] := by
  unfold FindAllString
  rw [allMatches, find_head (urlRegex_head _ m h hm hh)]
  simp only [List.length_nil, List.length_cons]
  rw [if_neg (by omega), allMatches]
  simp [find, urlRegex_ends_nil, between]

theorem hostnameRegex_FindString (m : Char) (h : List Char)
    (hm : m = dquote ∨ m = squote ∨ m = '/') (hh : Lang hostnameGrammar h) :
    hostnameRegex.FindString (m :: h) = m :: h := by
  unfold FindString
  rw [find_head (hostnameRegex_head _ m h hm hh)]
  simp [between]

/-- C5: for a marker character `m` and a hostname `h` of the hostname grammar
whose final label is in the registry, `extractHostnamesIps` on the chunk
`m ++ h` from a session without records returns, and leaves exactly one
record, whose `hostname` (and `url`) is `h`, the marker stripped. -/
theorem marker_hostname_one_record (TLDS : List Char → Bool) (scraper : Scraper) (m : Char)
    (h : List Char) (hempty : scraper.discoveredUrls = [])
    (hm : m = dquote ∨ m = squote ∨ m = '/')
    (hh : fullMatch hostnameGrammar h = true)
    (htld : TLDS (trailingLabel h) = true) :
    ∃ scraper1, extractHostnamesIps TLDS scraper (m :: h) = some scraper1 ∧
      scraper1.discoveredUrls =
        [{ url := h, hostname := h, follow := false, aws := false, awsService := [] }] := by
  have hl := Lang_of_fullMatch hh
  refine ⟨_, extractHostnamesIps_eq TLDS scraper (m :: h), ?_⟩
  simp only [hempty, List.nil_append, urlRegex_FindAllString m h hm hl, List.filterMap_cons,
    List.filterMap_nil, recordOf, hostnameRegex_FindString m h hm hl, List.drop_succ_cons,
    List.drop_zero, htld, if_true]

theorem marker_hostname_one_record_witness :
    ∃ scraper1, extractHostnamesIps (onlyTld "uk".toList)
        (newScraper "example.com".toList "page".toList) ('/' :: "my-site.co.uk".toList) =
          some scraper1 ∧
      scraper1.discoveredUrls =
        [{ url := "my-site.co.uk".toList, hostname := "my-site.co.uk".toList, follow := false,
           aws := false, awsService := [] }] :=
  marker_hostname_one_record (onlyTld "uk".toList)
    (newScraper "example.com".toList "page".toList) '/' "my-site.co.uk".toList rfl
    (by decide) (by decide) (by decide)

/-! ## Octets -/

theorem inClass_range (lo hi c : Char) :
    inClass false [(lo, hi)] c = true ↔ lo.toNat ≤ c.toNat ∧ c.toNat ≤ hi.toNat := by
  simp [inClass]

theorem inClass_range_false (lo hi c : Char) :
    inClass false [(lo, hi)] c = false ↔ ¬ (lo.toNat ≤ c.toNat ∧ c.toNat ≤ hi.toNat) := by
  rw [← inClass_range, Bool.not_eq_true]

theorem inClass_zero_one (c : Char) :
    inClass false [('0', '0'), ('1', '1')] c = true ↔ c.toNat = 48 ∨ c.toNat = 49 := by
  simp only [inClass, List.any_cons, List.any_nil, Bool.or_false, Bool.false_bne,
    Bool.or_eq_true, Bool.and_eq_true, decide_eq_true_eq]
  have h0 : ('0' : Char).toNat = 48 := rfl
  have h1 : ('1' : Char).toNat = 49 := rfl
  omega

theorem isDigit_iff (c : Char) : isDigit c = true ↔ 48 ≤ c.toNat ∧ c.toNat ≤ 57 := by
  unfold isDigit
  rw [inClass_range]
  have h0 : ('0' : Char).toNat = 48 := rfl
  have h9 : ('9' : Char).toNat = 57 := rfl
  omega

theorem isDigit_false_iff (c : Char) : isDigit c = false ↔ ¬ (48 ≤ c.toNat ∧ c.toNat ≤ 57) := by
  rw [← isDigit_iff, Bool.not_eq_true]

theorem octet_eq :
    octet = alt (cat (lit '2') (cat (lit '5') (cls false [('0', '5')])))
      (alt (cat (lit '2') (cat (cls false [('0', '4')]) digitCls))
        (cat (opt (cls false [('0', '0'), ('1', '1')])) (cat digitCls (opt digitCls)))) := rfl

/-- The words of `octet`, by their characters. -/
theorem Lang_octet_shape {o : List Char} (ho : Lang octet o) :
    (∃ a b c, o = [a, b, c] ∧ a.toNat = 50 ∧ b.toNat = 53 ∧ 48 ≤ c.toNat ∧ c.toNat ≤ 53) ∨
    (∃ a b c, o = [a, b, c] ∧ a.toNat = 50 ∧ 48 ≤ b.toNat ∧ b.toNat ≤ 52 ∧
      48 ≤ c.toNat ∧ c.toNat ≤ 57) ∨
    (∃ a b c, o = [a, b, c] ∧ (a.toNat = 48 ∨ a.toNat = 49) ∧ 48 ≤ b.toNat ∧ b.toNat ≤ 57 ∧
      48 ≤ c.toNat ∧ c.toNat ≤ 57) ∨
    (∃ a b, o = [a, b] ∧ 48 ≤ a.toNat ∧ a.toNat ≤ 57 ∧ 48 ≤ b.toNat ∧ b.toNat ≤ 57) ∨
    (∃ a, o = [a] ∧ 48 ≤ a.toNat ∧ a.toNat ≤ 57) := by
  have h0 : ('0' : Char).toNat = 48 := rfl
  have h2 : ('2' : Char).toNat = 50 := rfl
  have h4 : ('4' : Char).toNat = 52 := rfl
  have h5 : ('5' : Char).toNat = 53 := rfl
  have h9 : ('9' : Char).toNat = 57 := rfl
  rw [octet_eq] at ho
  rcases Lang_alt_inv ho with h | h
  · obtain ⟨u, v, rfl, hu, hv⟩ := Lang_cat_inv h
    obtain ⟨v1, v2, rfl, hv1, hv2⟩ := Lang_cat_inv hv
    obtain ⟨a, rfl, ha⟩ := Lang_cls_inv hu
    obtain ⟨b, rfl, hb⟩ := Lang_cls_inv hv1
    obtain ⟨c, rfl, hc⟩ := Lang_cls_inv hv2
    rw [inClass_range] at ha hb hc
    left
    exact ⟨a, b, c, rfl, by omega, by omega, by omega, by omega⟩
  · rcases Lang_alt_inv h with h | h
    · obtain ⟨u, v, rfl, hu, hv⟩ := Lang_cat_inv h
      obtain ⟨v1, v2, rfl, hv1, hv2⟩ := Lang_cat_inv hv
      obtain ⟨a, rfl, ha⟩ := Lang_cls_inv hu
      obtain ⟨b, rfl, hb⟩ := Lang_cls_inv hv1
      obtain ⟨c, rfl, hc⟩ := Lang_cls_inv hv2
      rw [inClass_range] at ha hb hc
      right; left
      exact ⟨a, b, c, rfl, by omega, by omega, by omega, by omega, by omega⟩
    · obtain ⟨u, v, rfl, hu, hv⟩ := Lang_cat_inv h
      obtain ⟨v1, v2, rfl, hv1, hv2⟩ := Lang_cat_inv hv
      obtain ⟨b, rfl, hb⟩ := Lang_cls_inv hv1
      rw [inClass_range] at hb
      rcases Lang_alt_inv hu with hu | hu
      · obtain ⟨a, rfl, ha⟩ := Lang_cls_inv hu
        rw [inClass_zero_one] at ha
        rcases Lang_alt_inv hv2 with hv2 | hv2
        · obtain ⟨c, rfl, hc⟩ := Lang_cls_inv hv2
          rw [inClass_range] at hc
          right; right; left
          exact ⟨a, b, c, rfl, ha, by omega, by omega, by omega, by omega⟩
        · have := Lang_empty_inv hv2
          subst this
          right; right; right; left
          exact ⟨a, b, rfl, by omega, by omega, by omega, by omega⟩
      · have := Lang_empty_inv hu
        subst this
        rcases Lang_alt_inv hv2 with hv2 | hv2
        · obtain ⟨c, rfl, hc⟩ := Lang_cls_inv hv2
          rw [inClass_range] at hc
          right; right; right; left
          exact ⟨b, c, rfl, by omega, by omega, by omega, by omega⟩
        · have := Lang_empty_inv hv2
          subst this
          right; right; right; right
          exact ⟨b, rfl, by omega, by omega⟩

theorem Lang_octet_digits {o : List Char} (ho : Lang octet o) :
    o ≠ [] ∧ ∀ c ∈ o, isDigit c = true := by
  rcases Lang_octet_shape ho with ⟨a, b, c, rfl, h⟩ | ⟨a, b, c, rfl, h⟩ | ⟨a, b, c, rfl, h⟩ |
    ⟨a, b, rfl, h⟩ | ⟨a, rfl, h⟩ <;>
  · refine ⟨by simp, ?_⟩
    intro d hd
    simp only [List.mem_cons, List.mem_singleton, List.mem_nil_iff, or_false] at hd
    rw [isDigit_iff]
    rcases hd with rfl | rfl | rfl <;> omega

theorem inClass_true (lo hi c : Char) (h1 : lo.toNat ≤ c.toNat) (h2 : c.toNat ≤ hi.toNat) :
    inClass false [(lo, hi)] c = true :=
  (inClass_range lo hi c).mpr ⟨h1, h2⟩

theorem inClass_false (lo hi c : Char) (h : c.toNat < lo.toNat ∨ hi.toNat < c.toNat) :
    inClass false [(lo, hi)] c = false := by
  rw [inClass_range_false]
  omega

theorem ends_alt (n : Nat) (a b : Regex) (s : List Char) :
    ends n (alt a b) s = ends n a s ++ ends n b s := by
  rw [ends]

/-- What the octet classes say of the first character of a text that does not
begin with a digit. -/
theorem ends_cls_noDigit (n : Nat) (lo hi : Char) (post : List Char)
    (hpost : ∀ c, post.head? = some c → isDigit c = false)
    (hlo : 48 ≤ lo.toNat) (hhi : hi.toNat ≤ 57) :
    ends n (cls false [(lo, hi)]) post = [] := by
  cases post with
  | nil => rfl
  | cons p ps =>
    have hp := (isDigit_false_iff p).mp (hpost p rfl)
    have : inClass false [(lo, hi)] p = false := inClass_false lo hi p (by omega)
    simp [ends, this]

/-- Followed by something that is no digit, `octet` matches a whole octet first. -/
theorem octet_head (n : Nat) (o post : List Char) (ho : Lang octet o)
    (hpost : ∀ c, post.head? = some c → isDigit c = false) :
    (ends n octet (o ++ post)).head? = some post := by
  have h0 : ('0' : Char).toNat = 48 := rfl
  have h1 : ('1' : Char).toNat = 49 := rfl
  have h2 : ('2' : Char).toNat = 50 := rfl
  have h4 : ('4' : Char).toNat = 52 := rfl
  have h5 : ('5' : Char).toNat = 53 := rfl
  have h9 : ('9' : Char).toNat = 57 := rfl
  have p05 := ends_cls_noDigit n '0' '5' post hpost (by omega) (by omega)
  have p04 := ends_cls_noDigit n '0' '4' post hpost (by omega) (by omega)
  have p09 := ends_cls_noDigit n '0' '9' post hpost (by omega) (by omega)
  have p55 := ends_cls_noDigit n '5' '5' post hpost (by omega) (by omega)
  rcases Lang_octet_shape ho with ⟨a, b, c, rfl, h⟩ | ⟨a, b, c, rfl, h⟩ | ⟨a, b, c, rfl, h⟩ |
    ⟨a, b, rfl, h⟩ | ⟨a, rfl, h⟩
  · have ta := inClass_true '2' '2' a (by omega) (by omega)
    have tb := inClass_true '5' '5' b (by omega) (by omega)
    have tc := inClass_true '0' '5' c (by omega) (by omega)
    simp [octet_eq, ends, lit, ta, tb, tc]
  · have ta := inClass_true '2' '2' a (by omega) (by omega)
    have tb := inClass_false '5' '5' b (by omega)
    have tb2 := inClass_true '0' '4' b (by omega) (by omega)
    have tc := inClass_true '0' '9' c (by omega) (by omega)
    simp [octet_eq, ends, lit, digitCls, ta, tb, tb2, tc]
  · have ta := inClass_false '2' '2' a (by omega)
    have ta2 := (inClass_zero_one a).mpr h.1
    have tb := inClass_true '0' '9' b (by omega) (by omega)
    have tc := inClass_true '0' '9' c (by omega) (by omega)
    simp [octet_eq, ends, lit, digitCls, opt, ta, ta2, tb, tc]
  · have ta := inClass_true '0' '9' a (by omega) (by omega)
    have tb := inClass_true '0' '9' b (by omega) (by omega)
    have e1 : ends n (cat (lit '2') (cat (lit '5') (cls false [('0', '5')]))) (a :: b :: post)
        = [] := by
      by_cases t1 : inClass false [('2', '2')] a = true <;>
      by_cases t2 : inClass false [('5', '5')] b = true <;>
      simp [ends, lit, t1, t2, p05]
    have e2 : ends n (cat (lit '2') (cat (cls false [('0', '4')]) digitCls)) (a :: b :: post)
        = [] := by
      by_cases t1 : inClass false [('2', '2')] a = true <;>
      by_cases t2 : inClass false [('0', '4')] b = true <;>
      simp [ends, lit, digitCls, t1, t2, p09]
    rw [octet_eq, List.cons_append, List.cons_append, List.nil_append, ends_alt, ends_alt,
      e1, e2, List.nil_append, List.nil_append]
    by_cases ta2 : inClass false [('0', '0'), ('1', '1')] a = true
    · simp [ends, digitCls, opt, ta2, tb, p09]
    · rw [Bool.not_eq_true] at ta2
      simp [ends, digitCls, opt, ta2, ta, tb]
  · have ta := inClass_true '0' '9' a (by omega) (by omega)
    have e1 : ends n (cat (lit '2') (cat (lit '5') (cls false [('0', '5')]))) (a :: post)
        = [] := by
      by_cases t1 : inClass false [('2', '2')] a = true <;>
      simp [ends, lit, t1, p55]
    have e2 : ends n (cat (lit '2') (cat (cls false [('0', '4')]) digitCls)) (a :: post)
        = [] := by
      by_cases t1 : inClass false [('2', '2')] a = true <;>
      simp [ends, lit, digitCls, t1, p04]
    rw [octet_eq, List.cons_append, List.nil_append, ends_alt, ends_alt, e1, e2,
      List.nil_append, List.nil_append]
    by_cases ta2 : inClass false [('0', '0'), ('1', '1')] a = true
    · simp [ends, digitCls, opt, ta2, ta, p09]
    · rw [Bool.not_eq_true] at ta2
      simp [ends, digitCls, opt, ta2, ta, p09]

/-! ## Addresses -/

theorem inClass_single (a c : Char) (h : inClass false [(a, a)] c = true) : c = a := by
  rw [inClass_range] at h
  apply Char.ext
  apply UInt32.ext
  have e1 : a.val.toNat = a.toNat := rfl
  have e2 : c.val.toNat = c.toNat := rfl
  omega

theorem ends_dot_cons (n : Nat) (a : Regex) (r : List Char) :
    ends n (cat (lit '.') a) ('.' :: r) = ends n a r := by
  have : inClass false [('.', '.')] '.' = true := by decide
  simp [ends, lit, this]

theorem ends_dot_nil (n : Nat) (a : Regex) (x : List Char) (hx : x.head? ≠ some '.') :
    ends n (cat (lit '.') a) x = [] := by
  cases x with
  | nil => simp [ends, lit]
  | cons c x =>
    have hc : inClass false [('.', '.')] c = false := by
      rw [← Bool.not_eq_true]
      intro h
      exact hx (by rw [inClass_single _ _ h]; rfl)
    simp [ends, lit, hc]

theorem isDigit_ne_dot (c : Char) (h : isDigit c = true) : c ≠ '.' := by
  rintro rfl
  revert h
  decide

/-- In front of a dot, only the whole octet lets the match go on. -/
theorem octet_dot_head (n : Nat) (K : List Char → List (List Char))
    (hK : ∀ x, x.head? ≠ some '.' → K x = []) (o rest : List Char) (ho : Lang octet o) :
    ((ends n octet (o ++ '.' :: rest)).flatMap K).head? = (K ('.' :: rest)).head? := by
  have hmem : '.' :: rest ∈ ends n octet (o ++ '.' :: rest) := ends_complete n ho (by decide) _
  apply head?_flatMap_unique hmem
  intro x hx hne
  apply hK
  intro hhead
  apply hne
  obtain ⟨p, hp, hl⟩ := ends_sound n _ _ _ hx
  cases x with
  | nil => simp at hhead
  | cons c x1 =>
    simp only [List.head?_cons, Option.some.injEq] at hhead
    subst hhead
    have := first_occurrence_unique '.' o p rest x1
      (fun d hd => isDigit_ne_dot d ((Lang_octet_digits ho).2 d hd))
      (fun d hd => isDigit_ne_dot d ((Lang_octet_digits hl).2 d hd)) hp
    rw [this.2]

theorem ipPattern_eq :
    ipPattern = cat octet (cat (cat (lit '.') octet)
      (cat (cat (lit '.') octet) (cat (lit '.') octet))) := rfl

theorem Lang_dot_octet {g : List Char} (h : Lang (cat (lit '.') octet) g) :
    ∃ o, g = '.' :: o ∧ Lang octet o := by
  obtain ⟨u, o, rfl, hu, ho⟩ := Lang_cat_inv h
  obtain ⟨c, rfl, hc⟩ := Lang_cls_inv hu
  rw [inClass_single _ _ hc]
  exact ⟨o, rfl, ho⟩

/-- The words of `ipPattern`: four octets with dots between them. -/
theorem Lang_ipPattern_shape {w : List Char} (h : Lang ipPattern w) :
    ∃ o1 o2 o3 o4, w = o1 ++ '.' :: (o2 ++ '.' :: (o3 ++ '.' :: o4)) ∧
      Lang octet o1 ∧ Lang octet o2 ∧ Lang octet o3 ∧ Lang octet o4 := by
  rw [ipPattern_eq] at h
  obtain ⟨o1, v, rfl, h1, hv⟩ := Lang_cat_inv h
  obtain ⟨g2, v, rfl, h2, hv⟩ := Lang_cat_inv hv
  obtain ⟨g3, g4, rfl, h3, h4⟩ := Lang_cat_inv hv
  obtain ⟨o2, rfl, k2⟩ := Lang_dot_octet h2
  obtain ⟨o3, rfl, k3⟩ := Lang_dot_octet h3
  obtain ⟨o4, rfl, k4⟩ := Lang_dot_octet h4
  exact ⟨o1, o2, o3, o4, by simp, h1, k2, k3, k4⟩

/-- Followed by something that is no digit, `ipPattern` matches a whole
address first. -/
theorem ipPattern_head (n : Nat) (w post : List Char) (hw : Lang ipPattern w)
    (hpost : ∀ c, post.head? = some c → isDigit c = false) :
    (ends n ipPattern (w ++ post)).head? = some post := by
  obtain ⟨o1, o2, o3, o4, rfl, h1, h2, h3, h4⟩ := Lang_ipPattern_shape hw
  have e : o1 ++ '.' :: (o2 ++ '.' :: (o3 ++ '.' :: o4)) ++ post =
      o1 ++ '.' :: (o2 ++ '.' :: (o3 ++ '.' :: (o4 ++ post))) := by simp
  rw [e, ipPattern_eq, ends]
  rw [octet_dot_head n _ (fun x hx => by rw [ends, ends_dot_nil n _ x hx]; rfl) _ _ h1]
  rw [ends, ends_dot_cons]
  rw [octet_dot_head n _ (fun x hx => by rw [ends, ends_dot_nil n _ x hx]; rfl) _ _ h2]
  rw [ends, ends_dot_cons]
  rw [octet_dot_head n _ (fun x hx => ends_dot_nil n _ x hx) _ _ h3]
  rw [ends_dot_cons]
  exact octet_head n o4 post h4 hpost

/-! ## The order of the matches -/

theorem occurInOrder_append (a : List Char) :
    ∀ (xs : List (List Char)) (s : List Char), occurInOrder xs s → occurInOrder xs (a ++ s) := by
  intro xs s h
  cases xs with
  | nil => trivial
  | cons x xs =>
    obtain ⟨pre, rest, hs, hr⟩ := h
    exact ⟨a ++ pre, rest, by rw [hs, List.append_assoc], hr⟩

theorem occurInOrder_infix :
    ∀ (xs : List (List Char)) (s x : List Char), occurInOrder xs s → x ∈ xs → x <:+: s := by
  intro xs
  induction xs with
  | nil => intro s x _ hx; simp at hx
  | cons y ys ih =>
    intro s x h hx
    obtain ⟨pre, rest, hs, hr⟩ := h
    rcases List.mem_cons.mp hx with rfl | hx
    · exact ⟨pre, rest, by rw [hs, List.append_assoc]⟩
    · obtain ⟨a, b, hab⟩ := ih rest x hr hx
      refine ⟨pre ++ (y ++ a), b, ?_⟩
      rw [hs, ← hab]
      simp

theorem occurInOrder_filterMap {β : Type} (f : List Char → Option β) (g : β → List Char)
    (hfg : ∀ x b, f x = some b → ∃ a, x = a ++ g b) :
    ∀ (xs : List (List Char)) (s : List Char), occurInOrder xs s →
      occurInOrder ((xs.filterMap f).map g) s := by
  intro xs
  induction xs with
  | nil => intro s _; trivial
  | cons x xs ih =>
    intro s h
    obtain ⟨pre, rest, hs, hr⟩ := h
    have h1 := ih rest hr
    cases hfx : f x with
    | none =>
      simp only [List.filterMap_cons, hfx]
      rw [hs, ← List.append_assoc]
      exact occurInOrder_append _ _ _ h1
    | some b =>
      simp only [List.filterMap_cons, hfx, List.map_cons]
      obtain ⟨a, ha⟩ := hfg x b hfx
      exact ⟨pre ++ a, rest, by rw [hs, ha]; simp, h1⟩

namespace Regex

/-- The matches the scan lists lie in the text from left to right, without
overlap. -/
theorem allMatches_order (r : Regex) (n : Nat) (fuel : Nat) :
    ∀ (s : List Char) (prevEnd : Option Nat), occurInOrder (allMatches r n fuel s prevEnd) s := by
  induction fuel with
  | zero => intro s prevEnd; simp [allMatches, occurInOrder]
  | succ k ih =>
    intro s prevEnd
    rw [allMatches]
    split
    · trivial
    · rename_i b e hfind
      obtain ⟨hhead, p, hp⟩ := find_spec n r s b e hfind
      obtain ⟨w, hw, _⟩ := ends_sound n r b e (mem_of_head? hhead)
      by_cases hlen : e.length = s.length
      · rw [if_pos hlen]
        cases s with
        | nil =>
          simp only
          split
          · trivial
          · exact ⟨[], [], rfl, trivial⟩
        | cons c t =>
          have hrest : occurInOrder (allMatches r n k t (some e.length)) (c :: t) := by
            have := occurInOrder_append [c] _ _ (ih t (some e.length))
            simpa using this
          simp only
          split
          · exact hrest
          · exact ⟨[], c :: t, rfl, hrest⟩
      · rw [if_neg hlen]
        refine ⟨p, e, ?_, ih e (some e.length)⟩
        rw [hp, hw, between_append]

theorem FindAllString_order (r : Regex) (s : List Char) :
    occurInOrder (FindAllString r s) s :=
  allMatches_order r _ _ s none

end Regex

/-! ## Extraction only appends -/

theorem scanChunks_eq (TLDS : List Char → Bool) :
    ∀ (chunks : List (List Char)) (scraper : Scraper),
      scanChunks TLDS chunks scraper =
        some { scraper with
          discoveredUrls := scraper.discoveredUrls ++
            chunks.flatMap (fun c => (urlRegex.FindAllString c).filterMap (recordOf TLDS))
          discoveredIps := scraper.discoveredIps ++
            chunks.flatMap (fun c => ipPattern.FindAllString c) } := by
  intro chunks
  induction chunks with
  | nil => intro scraper; simp [scanChunks]
  | cons c chunks ih =>
    intro scraper
    rw [scanChunks, extractHostnamesIps_eq]
    simp only
    rw [ih]
    simp [List.append_assoc]

/-- C11: for every chunk and any two registries, `extractHostnamesIps` returns
with the same `discoveredIps`: the addresses held before and the matches of
`ipPattern` in the chunk. The registry enters the records of `discoveredUrls`
only. -/
theorem ips_independent_of_registry (T1 T2 : List Char → Bool) (scraper : Scraper)
    (line : List Char) :
    ∃ s1 s2, extractHostnamesIps T1 scraper line = some s1 ∧
      extractHostnamesIps T2 scraper line = some s2 ∧
      s1.discoveredIps = s2.discoveredIps ∧
      s1.discoveredIps = scraper.discoveredIps ++ ipPattern.FindAllString line :=
  ⟨_, _, extractHostnamesIps_eq T1 scraper line, extractHostnamesIps_eq T2 scraper line,
    rfl, rfl⟩

/-- C18: `extractHostnamesIps` only appends. The lists held before are kept in
front, what is appended are the matches of `ipPattern` and the records of the
matches of `urlRegex` in the chunk (both depend on the chunk and the registry
only, and lie in the chunk from left to right), nothing is left out as a
duplicate, and scanning a sequence of chunks appends, chunk after chunk, what
scanning each chunk alone appends. -/
theorem extraction_appends (TLDS : List Char → Bool) (scraper : Scraper) :
    (∀ line : List Char,
      extractHostnamesIps TLDS scraper line =
        some { scraper with
          discoveredUrls := scraper.discoveredUrls ++
            (urlRegex.FindAllString line).filterMap (recordOf TLDS)
          discoveredIps := scraper.discoveredIps ++ ipPattern.FindAllString line } ∧
      occurInOrder (ipPattern.FindAllString line) line ∧
      occurInOrder (((urlRegex.FindAllString line).filterMap (recordOf TLDS)).map
        (fun u => u.url)) line) ∧
    (∀ chunks : List (List Char),
      scanChunks TLDS chunks scraper =
        some { scraper with
          discoveredUrls := scraper.discoveredUrls ++
            chunks.flatMap (fun c => (urlRegex.FindAllString c).filterMap (recordOf TLDS))
          discoveredIps := scraper.discoveredIps ++
            chunks.flatMap (fun c => ipPattern.FindAllString c) }) ∧
    (∀ line : List Char,
      (scanChunks TLDS [line, line] scraper).map (fun s => s.discoveredIps) =
        some (scraper.discoveredIps ++ ipPattern.FindAllString line ++
          ipPattern.FindAllString line)) ∧
    ipPattern.FindAllString "1.1.1.1 and 1.1.1.1".toList =
      ["1.1.1.1".toList, "1.1.1.1".toList] := by
  refine ⟨?_, fun chunks => scanChunks_eq TLDS chunks scraper, ?_, by decide⟩
  · intro line
    refine ⟨extractHostnamesIps_eq TLDS scraper line, FindAllString_order _ _, ?_⟩
    apply occurInOrder_filterMap _ _ _ _ _ (FindAllString_order _ _)
    intro x b hb
    unfold recordOf at hb
    split at hb
    · simp only [Option.some.injEq] at hb
      subst hb
      exact ⟨x.take 1, (List.take_append_drop 1 x).symm⟩
    · simp at hb
  · intro line
    rw [scanChunks_eq]
    simp

/-! ## Matches of `urlRegex`, once more -/

theorem Lang_plus_alnum_first {u : List Char} (h : Lang (plus alnumCls) u) :
    ∃ c t, u = c :: t ∧ inClass false [('a', 'z'), ('A', 'Z'), ('0', '9')] c = true := by
  obtain ⟨a, b, rfl, ha, _⟩ := Lang_cat_inv h
  obtain ⟨c, rfl, hc⟩ := Lang_cls_inv ha
  exact ⟨c, b, rfl, hc⟩

theorem Lang_hostnameGrammar_first {v : List Char} (h : Lang hostnameGrammar v) :
    ∃ c t, v = c :: t ∧ inClass false [('a', 'z'), ('A', 'Z'), ('0', '9')] c = true := by
  obtain ⟨x, f, rfl, hx, _⟩ := Lang_cat_inv h
  obtain ⟨g, w, rfl, hg, _⟩ := Lang_cat_inv hx
  obtain ⟨u, w2, rfl, hu, _⟩ := Lang_cat_inv hg
  obtain ⟨c, t, rfl, hc⟩ := Lang_plus_alnum_first hu
  exact ⟨c, t ++ w2 ++ w ++ f, by simp, hc⟩

theorem alnum_not_marker (c : Char)
    (h : inClass false [('a', 'z'), ('A', 'Z'), ('0', '9')] c = true) : isMarker c = false := by
  have h1 : c ≠ dquote := by rintro rfl; revert h; decide
  have h2 : c ≠ squote := by rintro rfl; revert h; decide
  have h3 : c ≠ '/' := by rintro rfl; revert h; decide
  simp [isMarker, h1, h2, h3]

theorem isMarker_iff (m : Char) : isMarker m = true ↔ (m = dquote ∨ m = squote ∨ m = '/') := by
  simp [isMarker, or_assoc]

/-- A match of `urlRegex` is a word of `urlRegex`; at its beginning
`hostnameRegex` finds a marker and a word of the hostname grammar. -/
theorem match_parts (n : Nat) (x e : List Char) (h : e ∈ ends n urlRegex (x ++ e)) :
    Lang urlRegex x ∧
    ∃ m v rest, hostnameRegex.FindString x = m :: v ∧ x = m :: (v ++ rest) ∧
      isMarker m = true ∧ Lang hostnameGrammar v := by
  have hlx : Lang urlRegex x := by
    obtain ⟨w, hw, hl⟩ := ends_sound n urlRegex _ _ h
    rw [← List.append_cancel_right hw] at hl
    exact hl
  refine ⟨hlx, ?_⟩
  rw [urlRegex_eq, mem_ends_cat] at h
  obtain ⟨u1, hu1, h⟩ := h
  rw [mem_ends_cat] at h
  obtain ⟨u2, hu2, h⟩ := h
  rw [mem_ends_cat] at h
  obtain ⟨u3, hu3, he⟩ := h
  have hhost : u3 ∈ ends n hostnameRegex (x ++ e) := by
    rw [hostnameRegex_eq, mem_ends_cat]
    refine ⟨u1, hu1, ?_⟩
    rw [mem_ends_cat]
    exact ⟨u2, hu2, hu3⟩
  obtain ⟨p, hp, hl⟩ := ends_sound n hostnameRegex _ _ hhost
  obtain ⟨q, hq, _⟩ := ends_sound n _ _ _ he
  have hx : x = p ++ q := by
    have hxe : x ++ e = (p ++ q) ++ e := by rw [hp, hq, List.append_assoc]
    exact List.append_cancel_right hxe
  have hq2 : q ∈ ends x.length hostnameRegex x := by
    have := ends_complete x.length hl (by decide) q
    rw [← hx] at this
    exact this
  obtain ⟨e1, he1⟩ := head?_isSome_of_mem hq2
  obtain ⟨p1, hp1, hl1⟩ := ends_sound x.length hostnameRegex _ _ (mem_of_head? he1)
  rw [hostnameRegex_eq] at hl1
  obtain ⟨a, v, rfl, ha, hv⟩ := Lang_cat_inv hl1
  obtain ⟨m, rfl, hm⟩ := Lang_cls_inv ha
  have hm2 : isMarker m = true := by
    have := Lang_hostnameRegex_shape (p := [m] ++ v) (by
      rw [hostnameRegex_eq]; exact Lang.cat (Lang.cls hm) hv)
    obtain ⟨m1, y, f, hshape, hmk, _⟩ := this
    simp only [List.singleton_append, List.cons.injEq] at hshape
    rw [isMarker_iff, hshape.1]
    exact hmk
  refine ⟨m, v, e1, ?_, ?_, hm2, hv⟩
  · unfold FindString
    rw [find_head he1]
    simp only
    conv => lhs; rw [hp1]
    rw [between_append]
    rfl
  · rw [hp1]
    simp

/-- The record of a match of `urlRegex`, if one is made. -/
theorem recordOf_parts (TLDS : List Char → Bool) (n : Nat) (x e : List Char) (u : DiscoveredUrl)
    (h : e ∈ ends n urlRegex (x ++ e)) (hu : recordOf TLDS x = some u) :
    ∃ m rest, isMarker m = true ∧ x = m :: u.url ∧ u.url = u.hostname ++ rest ∧
      Lang hostnameGrammar u.hostname ∧ Lang urlRegex (m :: u.url) := by
  obtain ⟨hlx, m, v, rest, hFS, hx, hm, hv⟩ := match_parts n x e h
  unfold recordOf at hu
  split at hu
  · simp only [Option.some.injEq] at hu
    subst hu
    simp only [hFS, List.drop_succ_cons, List.drop_zero]
    refine ⟨m, rest, hm, ?_, ?_, hv, ?_⟩
    · rw [hx]; rfl
    · rw [hx]; rfl
    · rw [hx] at hlx
      rw [hx]
      exact hlx
  · simp at hu

/-! ## Bounds of the indices -/

theorem FindString_ne_nil_MatchString (r : Regex) (s : List Char) (h : FindString r s ≠ []) :
    MatchString r s = true := by
  unfold FindString at h
  unfold MatchString
  cases hf : find s.length r s with
  | none => rw [hf] at h; exact absurd rfl h
  | some p => rfl

/-- C16: `extractHostnamesIps` never fails on an index or a slice: it returns
for every chunk and registry, and for every match `rawUrl` of `urlRegex`,
`rawUrl` is not empty, `hostnameRegex` matches inside it with a result that is
not empty, and `tldPattern` matches that hostname with a result of at least
two characters (the dot and a label), so that `tldMatch[1:]`, `rawUrl[0]`,
`rawUrl[1:]` and `rawHostname[1:]` are in bounds. -/
theorem no_index_out_of_range (TLDS : List Char → Bool) (scraper : Scraper) (line : List Char) :
    (extractHostnamesIps TLDS scraper line).isSome = true ∧
    ∀ rawUrl ∈ urlRegex.FindAllString line,
      rawUrl ≠ [] ∧
      hostnameRegex.MatchString rawUrl = true ∧
      hostnameRegex.FindString rawUrl ≠ [] ∧
      tldPattern.MatchString (hostnameRegex.FindString rawUrl) = true ∧
      2 ≤ (tldPattern.FindString (hostnameRegex.FindString rawUrl)).length ∧
      (extractUrl TLDS rawUrl).isSome = true := by
  constructor
  · rw [extractHostnamesIps_eq]
    rfl
  · intro rawUrl hraw
    obtain ⟨e, he⟩ := FindAllString_mem urlRegex line rawUrl hraw
    obtain ⟨m, y, f, rest, hFS, hx, _, hne, hf⟩ := hostname_of_match _ rawUrl e he
    have hT := tldPattern_FindString m y f hne hf
    have hlen : 2 ≤ (tldPattern.FindString (hostnameRegex.FindString rawUrl)).length := by
      rw [hFS, hT]
      have : 0 < f.length := List.length_pos.mpr hne
      simp only [List.length_cons]
      omega
    have h1 : hostnameRegex.FindString rawUrl ≠ [] := by rw [hFS]; simp
    have h2 : tldPattern.FindString (hostnameRegex.FindString rawUrl) ≠ [] := by
      intro h0
      rw [h0] at hlen
      simp at hlen
    refine ⟨by rw [hx]; simp, FindString_ne_nil_MatchString _ _ h1, h1,
      FindString_ne_nil_MatchString _ _ h2, hlen, ?_⟩
    rw [extractUrl_of_match TLDS _ rawUrl e he]
    rfl

/-! ## The form of the addresses -/

theorem decimalField_of_octet {o : List Char} (ho : Lang octet o) : decimalField o = true := by
  have hd := (Lang_octet_digits ho).2
  have hall : o.all isDigit = true := by
    rw [List.all_eq_true]
    exact hd
  unfold decimalField
  rw [hall]
  rcases Lang_octet_shape ho with ⟨a, b, c, rfl, h⟩ | ⟨a, b, c, rfl, h⟩ | ⟨a, b, c, rfl, h⟩ |
    ⟨a, b, rfl, h⟩ | ⟨a, rfl, h⟩ <;>
  · simp only [fieldValue, List.foldl, List.length_cons, List.length_nil, Bool.and_true,
      Bool.and_eq_true, decide_eq_true_eq]
    omega

/-- C15: every text that `extractHostnamesIps` appends to `discoveredIps`
consists of exactly four decimal fields with dots between them, each of one to
three digits and with a value from 0 to 255. -/
theorem appended_ips_are_dotted_quads (TLDS : List Char → Bool) (scraper : Scraper)
    (line : List Char) :
    ∃ scraper1 added, extractHostnamesIps TLDS scraper line = some scraper1 ∧
      scraper1.discoveredIps = scraper.discoveredIps ++ added ∧
      ∀ x ∈ added, dottedQuad x := by
  refine ⟨_, ipPattern.FindAllString line, extractHostnamesIps_eq TLDS scraper line, rfl, ?_⟩
  intro x hx
  obtain ⟨e, he⟩ := FindAllString_mem ipPattern line x hx
  obtain ⟨w, hw, hl⟩ := ends_sound _ ipPattern _ _ he
  rw [← List.append_cancel_right hw] at hl
  obtain ⟨o1, o2, o3, o4, rfl, h1, h2, h3, h4⟩ := Lang_ipPattern_shape hl
  exact ⟨o1, o2, o3, o4, rfl, decimalField_of_octet h1, decimalField_of_octet h2,
    decimalField_of_octet h3, decimalField_of_octet h4⟩

/-! ## Normalized records -/

/-- C19: every record that `extractHostnamesIps` appends is normalized: its
`url` is a match of `urlRegex` in the chunk without the marker the match
begins with, its `hostname` is a non-empty beginning of its `url`, and both
begin with a letter or a digit, not with a marker; every match begins with a
marker, so the branch that keeps the raw match is never taken. -/
theorem appended_records_normalized (TLDS : List Char → Bool) (scraper : Scraper)
    (line : List Char) :
    ∃ scraper1 added, extractHostnamesIps TLDS scraper line = some scraper1 ∧
      scraper1.discoveredUrls = scraper.discoveredUrls ++ added ∧
      (∀ u ∈ added, ∃ m c t rest, isMarker m = true ∧
        (m :: u.url) ∈ urlRegex.FindAllString line ∧
        u.hostname = c :: t ∧ u.url = c :: (t ++ rest) ∧ isMarker c = false) ∧
      ∀ rawUrl ∈ urlRegex.FindAllString line, ∃ m rest, rawUrl = m :: rest ∧
        isMarker m = true ∧
        extractUrl TLDS rawUrl = some (recordOf TLDS rawUrl) := by
  refine ⟨_, _, extractHostnamesIps_eq TLDS scraper line, rfl, ?_, ?_⟩
  · intro u hu
    simp only [List.mem_filterMap] at hu
    obtain ⟨x, hx, hrec⟩ := hu
    obtain ⟨e, he⟩ := FindAllString_mem urlRegex line x hx
    obtain ⟨m, rest, hm, hxm, hurl, hh, _⟩ := recordOf_parts TLDS _ x e u he hrec
    obtain ⟨c, t, hc, hcls⟩ := Lang_hostnameGrammar_first hh
    refine ⟨m, c, t, rest, hm, ?_, hc, ?_, alnum_not_marker c hcls⟩
    · rw [← hxm]; exact hx
    · rw [hurl, hc]; rfl
  · intro rawUrl hraw
    obtain ⟨e, he⟩ := FindAllString_mem urlRegex line rawUrl hraw
    obtain ⟨_, m, v, rest, _, hx, hm, _⟩ := match_parts _ rawUrl e he
    exact ⟨m, v ++ rest, hx, hm, extractUrl_of_match TLDS _ rawUrl e he⟩

/-! ## Chunks are scanned one by one -/

/-- C17, as amended: two consecutive chunks are scanned one by one. The
records appended are those of the first chunk followed by those of the second,
and each of them is made of a match that lies inside one of the two chunks:
its `url`, with the marker in front, is a part of the first chunk or of the
second. No record is made of text on both sides of the boundary. -/
theorem records_lie_in_one_chunk (TLDS : List Char → Bool) (scraper : Scraper)
    (c1 c2 : List Char) :
    ∃ scraper2, scanChunks TLDS [c1, c2] scraper = some scraper2 ∧
      scraper2.discoveredUrls = scraper.discoveredUrls ++
        ((urlRegex.FindAllString c1).filterMap (recordOf TLDS) ++
          (urlRegex.FindAllString c2).filterMap (recordOf TLDS)) ∧
      ∀ u ∈ (urlRegex.FindAllString c1).filterMap (recordOf TLDS) ++
          (urlRegex.FindAllString c2).filterMap (recordOf TLDS),
        ∃ m, isMarker m = true ∧ ((m :: u.url) <:+: c1 ∨ (m :: u.url) <:+: c2) := by
  refine ⟨_, scanChunks_eq TLDS [c1, c2] scraper, by simp, ?_⟩
  have key : ∀ (c : List Char) (u : DiscoveredUrl),
      u ∈ (urlRegex.FindAllString c).filterMap (recordOf TLDS) →
        ∃ m, isMarker m = true ∧ (m :: u.url) <:+: c := by
    intro c u hu
    simp only [List.mem_filterMap] at hu
    obtain ⟨x, hx, hrec⟩ := hu
    obtain ⟨e, he⟩ := FindAllString_mem urlRegex c x hx
    obtain ⟨m, rest, hm, hxm, _⟩ := recordOf_parts TLDS _ x e u he hrec
    refine ⟨m, hm, ?_⟩
    rw [← hxm]
    exact occurInOrder_infix _ _ _ (FindAllString_order urlRegex c) hx
  intro u hu
  rcases List.mem_append.mp hu with h | h
  · obtain ⟨m, hm, hin⟩ := key c1 u h
    exact ⟨m, hm, Or.inl hin⟩
  · obtain ⟨m, hm, hin⟩ := key c2 u h
    exact ⟨m, hm, Or.inr hin⟩

/-- C17 (counterexample): in the page `see "example.com/app.js" end` the URL
occurrence `"example.com/app.js` begins in the chunk `see "example.com/ap` and
ends in the chunk `p.js" end`. Scanning the two chunks gives a record made of
the part of the occurrence in the first chunk, its hostname `example.com`. -/
theorem straddling_occurrence_leaves_record :
    urlRegex.FindAllString
        ("see \"example.com/ap".toList ++ "p.js\" end".toList) =
      [dquote :: "example.com/app.js".toList] ∧
    (scanChunks (onlyTld "com".toList) ["see \"example.com/ap".toList, "p.js\" end".toList]
        (newScraper "example.com".toList "page".toList)).map (fun s => s.discoveredUrls) =
      some [{ url := "example.com".toList, hostname := "example.com".toList, follow := false,
              aws := false, awsService := [] }] := by
  decide

/-! ## Matching somewhere in a text -/

theorem hasInfix_iff (w s : List Char) :
    hasInfix w s = true ↔ ∃ a b, s = a ++ (w ++ b) := by
  unfold hasInfix
  simp only [List.any_eq_true, List.mem_tails, List.isPrefixOf_iff_prefix]
  constructor
  · rintro ⟨t, ⟨a, rfl⟩, ⟨b, rfl⟩⟩
    exact ⟨a, b, rfl⟩
  · rintro ⟨a, b, rfl⟩
    exact ⟨w ++ b, ⟨a, rfl⟩, ⟨b, rfl⟩⟩

theorem containsThen_iff (a b s : List Char) :
    containsThen a b s = true ↔ ∃ p r, s = p ++ (a ++ r) ∧ hasInfix b r = true := by
  unfold containsThen
  simp only [List.any_eq_true, List.mem_tails, Bool.and_eq_true, List.isPrefixOf_iff_prefix]
  constructor
  · rintro ⟨t, ⟨p, rfl⟩, ⟨r, rfl⟩, h⟩
    exact ⟨p, r, rfl, by simpa using h⟩
  · rintro ⟨p, r, rfl, h⟩
    exact ⟨a ++ r, ⟨p, rfl⟩, ⟨r, rfl⟩, by simpa using h⟩

namespace Regex

theorem find_isSome_append (n : Nat) (r : Regex) (t e : List Char) (he : e ∈ ends n r t) :
    ∀ a : List Char, (find n r (a ++ t)).isSome = true := by
  intro a
  induction a with
  | nil =>
    obtain ⟨b, hb⟩ := head?_isSome_of_mem he
    rw [List.nil_append, find_head hb]
    rfl
  | cons c a ih =>
    rw [List.cons_append, find]
    split
    · rfl
    · exact ih

/-- An expression without anchors matches somewhere in a text exactly when
a part of the text is a word of its language. -/
theorem MatchString_iff (r : Regex) (hr : anchorFree r = true) (s : List Char) :
    MatchString r s = true ↔ ∃ a w b, s = a ++ (w ++ b) ∧ Lang r w := by
  unfold MatchString
  constructor
  · intro h
    cases hf : find s.length r s with
    | none => rw [hf] at h; simp at h
    | some p =>
      obtain ⟨b, e⟩ := p
      obtain ⟨hhead, a, ha⟩ := find_spec _ r s b e hf
      obtain ⟨w, hw, hl⟩ := ends_sound _ r b e (mem_of_head? hhead)
      exact ⟨a, w, e, by rw [ha, hw], hl⟩
  · rintro ⟨a, w, b, hs, hl⟩
    have := find_isSome_append s.length r (w ++ b) b (ends_complete _ hl hr b) a
    rw [← hs] at this
    exact this

theorem Lang_concatOf_cons (r : Regex) (rs : List Regex) (w : List Char) :
    Lang (concatOf (r :: rs)) w ↔ ∃ u v, w = u ++ v ∧ Lang r u ∧ Lang (concatOf rs) v := by
  cases rs with
  | nil =>
    constructor
    · intro h
      exact ⟨w, [], by simp, h, Lang.empty⟩
    · rintro ⟨u, v, rfl, hu, hv⟩
      have hv0 : v = [] := Lang_empty_inv hv
      rw [hv0, List.append_nil]
      exact hu
  | cons r2 rs =>
    constructor
    · intro h
      exact Lang_cat_inv h
    · rintro ⟨u, v, rfl, hu, hv⟩
      exact Lang.cat hu hv

theorem inClass_lit (a c : Char) : inClass false [(a, a)] c = true ↔ c = a := by
  constructor
  · intro h
    rw [inClass_range] at h
    apply Char.ext
    apply UInt32.ext
    have e1 : a.val.toNat = a.toNat := rfl
    have e2 : c.val.toNat = c.toNat := rfl
    omega
  · rintro rfl
    rw [inClass_range]
    exact ⟨Nat.le_refl _, Nat.le_refl _⟩

/-- The language of a literal string is the string. -/
theorem Lang_str (w0 w : List Char) : Lang (str w0) w ↔ w = w0 := by
  unfold str
  induction w0 generalizing w with
  | nil =>
    constructor
    · intro h; exact Lang_empty_inv h
    · rintro rfl; exact Lang.empty
  | cons c w0 ih =>
    rw [List.map_cons, Lang_concatOf_cons]
    constructor
    · rintro ⟨u, v, rfl, hu, hv⟩
      obtain ⟨d, rfl, hd⟩ := Lang_cls_inv hu
      rw [(inClass_lit c d).mp hd, (ih v).mp hv]
      rfl
    · rintro rfl
      exact ⟨[c], w0, rfl, Lang.cls ((inClass_lit c c).mpr rfl), (ih w0).mpr rfl⟩

theorem anchorFree_concatOf (rs : List Regex) (h : ∀ r ∈ rs, anchorFree r = true) :
    anchorFree (concatOf rs) = true := by
  induction rs with
  | nil => rfl
  | cons r rs ih =>
    cases rs with
    | nil => exact h r (List.mem_cons_self _ _)
    | cons r2 rs =>
      simp only [concatOf, anchorFree, Bool.and_eq_true]
      exact ⟨h r (List.mem_cons_self _ _), ih (fun x hx => h x (List.mem_cons_of_mem _ hx))⟩

theorem anchorFree_str (w : List Char) : anchorFree (str w) = true := by
  apply anchorFree_concatOf
  intro r hr
  simp only [List.mem_map] at hr
  obtain ⟨c, _, rfl⟩ := hr
  rfl

/-- A literal string matches somewhere in a text exactly when it occurs in it. -/
theorem MatchString_str (w s : List Char) : MatchString (str w) s = hasInfix w s := by
  rw [Bool.eq_iff_iff, MatchString_iff _ (anchorFree_str w), hasInfix_iff]
  constructor
  · rintro ⟨a, x, b, hs, hl⟩
    rw [(Lang_str w x).mp hl] at hs
    exact ⟨a, b, hs⟩
  · rintro ⟨a, b, hs⟩
    exact ⟨a, w, b, hs, (Lang_str w w).mpr rfl⟩

end Regex

/-! ## Addresses between other text -/

namespace Regex

/-- What `find` returns is the leftmost match: no match begins in front of
it. -/
theorem find_leftmost (n : Nat) (r : Regex) :
    ∀ (s b e : List Char), find n r s = some (b, e) →
      ∃ p, s = p ++ b ∧ cleanBefore r n p b = true := by
  intro s
  induction s with
  | nil =>
    intro b e h
    simp only [find, Option.map_eq_some', Prod.mk.injEq] at h
    obtain ⟨a, _, rfl, rfl⟩ := h
    exact ⟨[], rfl, rfl⟩
  | cons c s ih =>
    intro b e h
    simp only [find] at h
    split at h
    · simp only [Option.some.injEq, Prod.mk.injEq] at h
      obtain ⟨rfl, rfl⟩ := h
      exact ⟨[], rfl, rfl⟩
    · rename_i hnone
      obtain ⟨p, hp, hc⟩ := ih b e h
      refine ⟨c :: p, by simp [hp], ?_⟩
      rw [List.head?_eq_none_iff] at hnone
      simp only [cleanBefore, Bool.and_eq_true, List.isEmpty_iff]
      rw [← hp]
      exact ⟨hnone, hc⟩

theorem cleanBefore_inside (r : Regex) (n : Nat) (c : Char) (q rest : List Char) :
    ∀ a : List Char, cleanBefore r n (a ++ c :: q) rest = true →
      ends n r (c :: (q ++ rest)) = [] := by
  intro a
  induction a with
  | nil =>
    intro h
    simp only [List.nil_append, cleanBefore, Bool.and_eq_true, List.isEmpty_iff] at h
    exact h.1
  | cons d a ih =>
    intro h
    simp only [List.cons_append, cleanBefore, Bool.and_eq_true] at h
    exact ih h.2

end Regex

/-- The words of `ipPattern` are not empty and are made of digits and dots. -/
theorem Lang_ipPattern_chars {w : List Char} (h : Lang ipPattern w) :
    w ≠ [] ∧ ∀ c ∈ w, digitOrDot c = true := by
  obtain ⟨o1, o2, o3, o4, rfl, h1, h2, h3, h4⟩ := Lang_ipPattern_shape h
  refine ⟨by simp, ?_⟩
  intro c hc
  simp only [List.mem_append, List.mem_cons] at hc
  unfold digitOrDot
  rcases hc with hc | rfl | hc | rfl | hc | rfl | hc
  · rw [(Lang_octet_digits h1).2 c hc]; rfl
  · simp
  · rw [(Lang_octet_digits h2).2 c hc]; rfl
  · simp
  · rw [(Lang_octet_digits h3).2 c hc]; rfl
  · simp
  · rw [(Lang_octet_digits h4).2 c hc]; rfl

/-- One round of the scan of `ipPattern` in front of an address: the match
found either is the address or ends in front of it. -/
theorem allMatches_ip_step (n : Nat) (w post : List Char) (hw : Lang ipPattern w)
    (hpost : ∀ c, post.head? = some c → isDigit c = false)
    (a : List Char) (fuel : Nat) (prevEnd : Option Nat)
    (ih : ∀ (t : List Char) (fuel1 : Nat) (prev : Option Nat), t.length < a.length →
      t.length + (w ++ post).length < fuel1 →
      (∀ a0 c, t = a0 ++ [c] → digitOrDot c = false) →
      w ∈ allMatches ipPattern n fuel1 (t ++ (w ++ post)) prev)
    (hfuel : a.length + (w ++ post).length < fuel)
    (hb : ∀ a0 c, a = a0 ++ [c] → digitOrDot c = false) :
    w ∈ allMatches ipPattern n fuel (a ++ (w ++ post)) prevEnd := by
  have hhead := ipPattern_head n w post hw hpost
  have hwne := (Lang_ipPattern_chars hw).1
  cases fuel with
  | zero => omega
  | succ fuel1 =>
    rw [allMatches]
    have hsome := find_isSome_append n ipPattern (w ++ post) post (mem_of_head? hhead) a
    cases hfind : find n ipPattern (a ++ (w ++ post)) with
    | none => rw [hfind] at hsome; simp at hsome
    | some be =>
      obtain ⟨b, e⟩ := be
      simp only
      obtain ⟨he, _⟩ := find_spec n ipPattern _ b e hfind
      obtain ⟨p, hp, hclean⟩ := find_leftmost n ipPattern _ b e hfind
      obtain ⟨x, hx, hlx⟩ := ends_sound n ipPattern b e (mem_of_head? he)
      obtain ⟨hxne, hxc⟩ := Lang_ipPattern_chars hlx
      have hxpos : 0 < x.length := List.length_pos.mpr hxne
      have hlen : ¬ e.length = (a ++ (w ++ post)).length := by
        rw [hp, hx]
        simp only [List.length_append]
        omega
      rw [if_neg hlen, hx, between_append]
      -- the match at the address itself
      have hat : b = w ++ post → w ∈ x :: allMatches ipPattern n fuel1 e (some e.length) := by
        intro hbw
        rw [hbw, hhead] at he
        simp only [Option.some.injEq] at he
        subst he
        rw [hbw] at hx
        have : w = x := List.append_cancel_right hx
        rw [this]
        exact List.mem_cons_self _ _
      rcases List.append_eq_append_iff.mp hp with ⟨a1, hpa, hrest⟩ | ⟨c1, hac, hbc⟩
      · -- the match begins at the address or behind its start
        cases a1 with
        | nil =>
          simp only [List.nil_append] at hrest
          exact hat hrest.symm
        | cons d a2 =>
          exfalso
          rw [hpa] at hclean
          have hnil := cleanBefore_inside ipPattern n d a2 b a hclean
          rw [List.cons_append] at hrest
          rw [hrest, hnil] at hhead
          simp at hhead
      · -- the match begins in front of the address
        cases c1 with
        | nil =>
          simp only [List.nil_append] at hbc
          exact hat hbc
        | cons d c2 =>
          have hlast : ∀ (q u : List Char) (c : Char), d :: c2 = q ++ (u ++ [c]) →
              digitOrDot c = false := by
            intro q u c hq
            apply hb (p ++ (q ++ u)) c
            rw [hac, hq]
            simp
          rw [hx] at hbc
          rcases List.append_eq_append_iff.mp hbc with ⟨t, hct, het⟩ | ⟨t, hxt, hrest⟩
          · cases t with
            | nil =>
              -- the match would end with the last character in front of the address
              exfalso
              simp only [List.append_nil] at hct
              rcases List.eq_nil_or_concat (d :: c2) with hnil | ⟨q, c, hq⟩
              · simp at hnil
              · rw [List.concat_eq_append] at hq
                have h1 := hlast [] q c (by simpa using hq)
                have h2 := hxc c (by rw [← hct, hq]; simp)
                rw [h1] at h2
                exact Bool.false_ne_true h2
            | cons f t =>
              -- the match ends in front of the address: the scan goes on
              apply List.mem_cons_of_mem
              rw [het]
              apply ih
              · rw [hac, hct]
                simp only [List.length_append, List.length_cons]
                omega
              · have : a.length = p.length + (x.length + (f :: t).length) := by
                  rw [hac, hct]
                  simp only [List.length_append]
                omega
              · intro a0 c h0
                exact hlast x a0 c (by rw [hct, h0])
          · -- the match would cover the last character in front of the address
            exfalso
            rcases List.eq_nil_or_concat (d :: c2) with hnil | ⟨q, c, hq⟩
            · simp at hnil
            · rw [List.concat_eq_append] at hq
              have h1 := hlast [] q c (by simpa using hq)
              have h2 := hxc c (by rw [hxt, hq]; simp)
              rw [h1] at h2
              exact Bool.false_ne_true h2

/-- The scan of `ipPattern` over a text lists every address that stands
after a character that is no digit and no dot (or at the start of the text)
and in front of a character that is no digit (or at the end of the text). -/
theorem allMatches_ip_reaches (n : Nat) (w post : List Char) (hw : Lang ipPattern w)
    (hpost : ∀ c, post.head? = some c → isDigit c = false) :
    ∀ (k : Nat) (a : List Char) (fuel : Nat) (prevEnd : Option Nat), a.length = k →
      a.length + (w ++ post).length < fuel →
      (∀ a0 c, a = a0 ++ [c] → digitOrDot c = false) →
      w ∈ allMatches ipPattern n fuel (a ++ (w ++ post)) prevEnd := by
  intro k
  induction k using Nat.strong_induction_on with
  | _ k ih =>
    intro a fuel prevEnd hk hfuel hb
    apply allMatches_ip_step n w post hw hpost a fuel prevEnd _ hfuel hb
    intro t fuel1 prev ht hf1 hbt
    exact ih t.length (by omega) t fuel1 prev rfl hf1 hbt

/-- The same, of `FindAllString`. -/
theorem FindAllString_ip_bounded (pre w post : List Char) (hw : Lang ipPattern w)
    (hpre : ∀ a0 c, pre = a0 ++ [c] → digitOrDot c = false)
    (hpost : ∀ c, post.head? = some c → isDigit c = false) :
    w ∈ ipPattern.FindAllString (pre ++ (w ++ post)) := by
  unfold FindAllString
  apply allMatches_ip_reaches _ w post hw hpost pre.length pre _ _ rfl _ hpre
  simp only [List.length_append]
  omega

/-- C4, as amended: when `w` matches the IPv4 octet grammar, the character
just before it in the chunk (if there is one) is no decimal digit and no dot,
and the character just after it (if there is one) is no decimal digit,
`extractHostnamesIps` on the chunk `pre ++ w ++ post` returns with `w` among
`discoveredIps`, whatever else surrounds it. -/
theorem ipv4_bounded_found (TLDS : List Char → Bool) (scraper : Scraper)
    (pre w post : List Char) (hw : fullMatch ipPattern w = true)
    (hpre : pre.getLast?.map digitOrDot ≠ some true)
    (hpost : post.head?.map isDigit ≠ some true) :
    ∃ scraper1, extractHostnamesIps TLDS scraper (pre ++ (w ++ post)) = some scraper1 ∧
      w ∈ scraper1.discoveredIps := by
  have hl := Lang_of_fullMatch hw
  have hpost2 : ∀ c, post.head? = some c → isDigit c = false := by
    intro c hc
    rw [hc] at hpost
    cases hd : isDigit c
    · rfl
    · simp only [Option.map_some', hd] at hpost
      exact absurd rfl hpost
  have hpre2 : ∀ a0 c, pre = a0 ++ [c] → digitOrDot c = false := by
    intro a0 c hc
    rw [hc, List.getLast?_concat] at hpre
    cases hd : digitOrDot c
    · rfl
    · simp only [Option.map_some', hd] at hpre
      exact absurd rfl hpre
  refine ⟨_, extractHostnamesIps_eq TLDS scraper _, ?_⟩
  simp only [List.mem_append]
  right
  exact FindAllString_ip_bounded pre w post hl hpre2 hpost2

theorem ipv4_bounded_found_witness :
    ∃ scraper1, extractHostnamesIps (onlyTld "com".toList)
        (newScraper "example.com".toList "page".toList)
        ("1.1.1.1 and ".toList ++ ("2.2.2.2".toList ++ ", 3.3.3.3".toList)) = some scraper1 ∧
      "2.2.2.2".toList ∈ scraper1.discoveredIps :=
  ipv4_bounded_found (onlyTld "com".toList) (newScraper "example.com".toList "page".toList)
    "1.1.1.1 and ".toList "2.2.2.2".toList ", 3.3.3.3".toList (by decide) (by decide) (by decide)

/-- C4 (counterexample): `0.0.0.5` is a substring of the chunk `10.0.0.5` and
matches the IPv4 octet grammar, but `extractHostnamesIps` on that chunk appends
`10.0.0.5` only: matches do not overlap. -/
theorem ipv4_substring_missed :
    ¬ ∀ (TLDS : List Char → Bool) (scraper : Scraper) (chunk w : List Char),
      w <:+: chunk → fullMatch ipPattern w = true →
        ∃ scraper1, extractHostnamesIps TLDS scraper chunk = some scraper1 ∧
          w ∈ scraper1.discoveredIps := by
  intro h
  obtain ⟨s1, hs1, hmem⟩ := h (onlyTld "com".toList) (newScraper [] []) "10.0.0.5".toList
    "0.0.0.5".toList ⟨"1".toList, [], by decide⟩ (by decide)
  rw [extractHostnamesIps_eq] at hs1
  simp only [Option.some.injEq] at hs1
  subst hs1
  revert hmem
  decide

/-- None of the three conditions on the neighbours of an address can be
dropped: `0.0.0.5` after the digit `1`, `1.2.3.4` after the dot of `1.1.1.`
and `1.1.1.1` in front of the digit `2` are not among the matches listed. -/
theorem ipv4_bounds_needed :
    "0.0.0.5".toList ∉ ipPattern.FindAllString "10.0.0.5".toList ∧
      "1.2.3.4".toList ∉ ipPattern.FindAllString "1.1.1.1.2.3.4".toList ∧
      "1.1.1.1".toList ∉ ipPattern.FindAllString "1.1.1.12".toList := by
  decide

/-! ## The cloud-provider mark -/

theorem MatchPattern_aws (url : List Char) :
    MatchPattern awsPatternText url = hasInfix "aws".toList url := by
  unfold MatchPattern
  rw [Compile_aws]
  exact MatchString_str _ _

theorem markAws_aws (u : DiscoveredUrl) :
    (markAws u).aws = (u.aws || hasInfix "aws".toList u.url) := by
  unfold markAws
  rw [MatchPattern_aws]
  cases h : hasInfix "aws".toList u.url <;> simp

/-- C13: in a session whose records have `aws = false`, as they come from
extraction, `markUrlsAsAwsService` leaves a record with `aws = true` exactly
when its `url` contains `aws`; the same holds when `markUrlsToCheck` has run
before, and whatever the `follow` flag of a record is. -/
theorem aws_iff_url_contains_aws (scraper : Scraper)
    (hfresh : ∀ u ∈ scraper.discoveredUrls, u.aws = false) :
    (markUrlsAsAwsService scraper).discoveredUrls.map (fun u => u.aws) =
      scraper.discoveredUrls.map (fun u => hasInfix "aws".toList u.url) ∧
    (markUrlsAsAwsService (markUrlsToCheck scraper)).discoveredUrls.map (fun u => u.aws) =
      scraper.discoveredUrls.map (fun u => hasInfix "aws".toList u.url) ∧
    ∀ u ∈ scraper.discoveredUrls, ∀ b : Bool,
      (markAws { u with follow := b }).aws = hasInfix "aws".toList u.url := by
  refine ⟨?_, ?_, ?_⟩
  · simp only [markUrlsAsAwsService, List.map_map]
    apply List.map_congr_left
    intro u hu
    simp [markAws_aws, hfresh u hu]
  · simp only [markUrlsAsAwsService, markUrlsToCheck, List.map_map]
    apply List.map_congr_left
    intro u hu
    have h1 : (markFollow u).aws = u.aws := by rw [markFollow_eq]
    simp [markAws_aws, h1, markFollow_url, hfresh u hu]
  · intro u hu b
    rw [markAws_aws]
    simp [hfresh u hu]

theorem aws_iff_url_contains_aws_witness :
    (markUrlsAsAwsService freshSession).discoveredUrls.map (fun u => u.aws) =
      freshSession.discoveredUrls.map (fun u => hasInfix "aws".toList u.url) ∧
    freshSession.discoveredUrls.map (fun u => hasInfix "aws".toList u.url) =
      [false, true, false] :=
  ⟨(aws_iff_url_contains_aws freshSession (by decide)).1, by decide⟩

/-! ## The scheme test of `downloadFile` -/

namespace Regex

theorem find_bot_later (n : Nat) (x : Regex) :
    ∀ t : List Char, t.length < n → find n (cat bot x) t = none := by
  intro t
  induction t with
  | nil =>
    intro h
    have : ¬ (0 = n) := by omega
    simp [find, ends, this]
  | cons c t ih =>
    intro h
    have hne : ¬ ((c :: t).length = n) := by omega
    have e : ends n (cat bot x) (c :: t) = [] := by
      rw [ends, ends, if_neg hne]
      rfl
    rw [find_skip e]
    apply ih
    simp only [List.length_cons] at h
    omega

/-- An expression that begins with `^` matches at the beginning of the text
or nowhere. -/
theorem MatchString_bot (x : Regex) (hx : anchorFree x = true) (s : List Char) :
    MatchString (cat bot x) s = true ↔ ∃ w b, s = w ++ b ∧ Lang x w := by
  unfold MatchString
  have e : ends s.length (cat bot x) s = ends s.length x s := by
    rw [ends, ends, if_pos rfl]
    simp
  constructor
  · intro h
    cases s with
    | nil =>
      cases hh : (ends 0 (cat bot x) []).head? with
      | none => simp [find, hh] at h
      | some e1 =>
        have e0 : ends 0 (cat bot x) [] = ends 0 x [] := e
        rw [e0] at hh
        obtain ⟨w, hw, hl⟩ := ends_sound _ x _ _ (mem_of_head? hh)
        exact ⟨w, e1, hw, hl⟩
    | cons c t =>
      cases hh : (ends (c :: t).length (cat bot x) (c :: t)).head? with
      | none =>
        have hnil : ends (c :: t).length (cat bot x) (c :: t) = [] := by
          cases hl : ends (c :: t).length (cat bot x) (c :: t) with
          | nil => rfl
          | cons a l => rw [hl] at hh; simp at hh
        rw [find_skip hnil, find_bot_later _ x t (by simp)] at h
        simp at h
      | some e1 =>
        rw [e] at hh
        obtain ⟨w, hw, hl⟩ := ends_sound _ x _ _ (mem_of_head? hh)
        exact ⟨w, e1, hw, hl⟩
  · rintro ⟨w, b, hs, hl⟩
    have hmem : b ∈ ends s.length (cat bot x) s := by
      rw [e]
      have := ends_complete s.length hl hx b
      rw [← hs] at this
      exact this
    obtain ⟨e1, he1⟩ := head?_isSome_of_mem hmem
    rw [find_head he1]
    rfl

end Regex

/-- The test of `downloadFile` holds exactly of the targets that begin with the
four letters `http`. -/
theorem MatchPattern_http (url : List Char) :
    MatchPattern httpPatternText url = "http".toList.isPrefixOf url := by
  unfold MatchPattern
  rw [Compile_http]
  have e : concatOf [bot, str "http".toList] = cat bot (str "http".toList) := rfl
  rw [e, Bool.eq_iff_iff, MatchString_bot _ (anchorFree_str _), List.isPrefixOf_iff_prefix]
  constructor
  · rintro ⟨w, b, hs, hl⟩
    rw [(Lang_str _ w).mp hl] at hs
    exact ⟨b, hs.symm⟩
  · rintro ⟨b, hs⟩
    exact ⟨_, b, hs.symm, (Lang_str _ _).mpr rfl⟩

/-- C14 (the code at the failing input): `downloadFile` requests a target
unchanged exactly when it begins with the letters `http`, and with `http://` in
front otherwise. The target `httpbin.org/get` carries no scheme, and is
requested as it is. -/
theorem scheme_test_is_http_only (web : Web) (filepath url : List Char) (st : CrawlState) :
    (downloadFile web filepath url st).1.requests =
      st.requests ++ [if "http".toList.isPrefixOf url then url else "http://".toList ++ url] ∧
    (downloadFile (fun _ => none) "/tmp/test.txt".toList "httpbin.org/get".toList
        (startState (oneFile "root".toList []))).1.requests = ["httpbin.org/get".toList] := by
  constructor
  · unfold downloadFile
    simp only [MatchPattern_http]
    split <;> rfl
  · decide

/-! ## Scripts and other files -/

/-- C12 (the code at the failing input): with a registry that contains `com`,
the chunk `"cdn.cloudflare.com/data.json" 'x.com/a.jsx?b'` gives two records,
whose files have the extensions `json` and `jsx`, and `markUrlsToCheck` marks
both `follow = true`: the patterns ask for `.js` somewhere, not at the end of
the path. -/
theorem json_is_marked_follow :
    ((extractHostnamesIps (onlyTld "com".toList) (newScraper "example.com".toList "page".toList)
        (dquote :: "cdn.cloudflare.com/data.json".toList ++
          dquote :: ' ' :: squote :: "x.com/a.jsx?b".toList ++ [squote])).map
      (fun s => (markUrlsToCheck s).discoveredUrls.map (fun u => (u.url, u.follow)))) =
      some [("cdn.cloudflare.com/data.json".toList, true), ("x.com/a.jsx?b".toList, true)] := by
  decide

/-! ## A hostname read as a pattern -/

namespace Regex

theorem Lang_excludes (x : Char) {r : Regex} {w : List Char} (h : Lang r w) :
    classesExclude x r = true → ∀ c ∈ w, c ≠ x := by
  induction h with
  | empty => intro _ c hc; simp at hc
  | @cls neg ranges d hd =>
    intro hx c hc
    simp only [List.mem_singleton] at hc
    subst hc
    simp only [classesExclude, Bool.and_eq_true, Bool.not_eq_true'] at hx
    rintro rfl
    rw [hx.1] at hd
    simp only [inClass, Bool.false_bne] at hd hx
    rw [hx.2] at hd
    exact absurd hd (by simp)
  | bot => intro _ c hc; simp at hc
  | eot => intro _ c hc; simp at hc
  | cat _ _ iha ihb =>
    intro hx c hc
    simp only [classesExclude, Bool.and_eq_true] at hx
    rcases List.mem_append.mp hc with hc | hc
    · exact iha hx.1 c hc
    · exact ihb hx.2 c hc
  | altL _ ih =>
    intro hx c hc
    simp only [classesExclude, Bool.and_eq_true] at hx
    exact ih hx.1 c hc
  | altR _ ih =>
    intro hx c hc
    simp only [classesExclude, Bool.and_eq_true] at hx
    exact ih hx.2 c hc
  | starNil => intro _ c hc; simp at hc
  | starCons _ _ ihu ihv =>
    intro hx c hc
    rcases List.mem_append.mp hc with hc | hc
    · exact ihu (by simpa [classesExclude] using hx) c hc
    · exact ihv hx c hc

/-- The pattern reader on a character that is no operator. -/
theorem parseLoop_plain (fuel : Nat) (c : Char) (t : List Char) (stack : List Frame)
    (cur : Frame) (hc : c ∉ metaChars) :
    parseLoop (fuel + 1) (c :: t) stack cur false =
      parseLoop fuel t stack { cur with seq := charRe c :: cur.seq } false := by
  simp only [metaChars, List.mem_cons, List.mem_singleton, List.mem_nil_iff, or_false,
    not_or] at hc
  obtain ⟨h1, h2, h3, h4, h5, h6, h7, h8, h9, h10, h11⟩ := hc
  by_cases hd : c = '.'
  · subst hd
    simp [parseLoop, charRe]
  · simp [parseLoop, charRe, h1, h2, h3, h4, h5, h6, h7, h8, h9, h10, h11, hd]

theorem parseLoop_host (fuel : Nat) (t : List Char) (stack : List Frame) :
    ∀ (h : List Char) (cur : Frame), (∀ c ∈ h, c ∉ metaChars) →
      parseLoop (fuel + h.length) (h ++ t) stack cur false =
        parseLoop fuel t stack { cur with seq := (h.map charRe).reverse ++ cur.seq } false := by
  intro h
  induction h with
  | nil => intro cur _; rfl
  | cons c h ih =>
    intro cur hh
    have e : fuel + (c :: h).length = (fuel + h.length) + 1 := by simp [Nat.add_assoc]
    rw [e, List.cons_append, parseLoop_plain _ c _ stack cur (hh c (List.mem_cons_self _ _)),
      ih _ (fun d hd => hh d (List.mem_cons_of_mem _ hd))]
    simp

theorem parseLoop_open (fuel : Nat) (t : List Char) (stack : List Frame) (cur : Frame)
    (lastRep : Bool) (ht : t.head? ≠ some '?') :
    parseLoop (fuel + 1) ('(' :: t) stack cur lastRep =
      parseLoop fuel t (cur :: stack) ⟨[], []⟩ false := by
  simp [parseLoop, ht]

theorem parseLoop_jsTail (seq : List Regex) :
    parseLoop 17 (')' :: jsTailText) [⟨[], []⟩] ⟨[], seq⟩ false =
      some (cat (concatOf seq.reverse) jsTail) := by
  rfl

/-- The pattern `markUrlsToCheck` builds of a hostname without operators other
than the dot compiles to the hostname read character by character, the dots
as wildcards, followed by the compiled `.*\.js(\?){0,1}`. -/
theorem Compile_hostname (h : List Char) (hh : ∀ c ∈ h, c ∉ metaChars) :
    Compile ('(' :: h ++ ')' :: jsTailText) = some (cat (hostRe h) jsTail) := by
  unfold Compile
  have hlen : ('(' :: h ++ ')' :: jsTailText).length + 1 = (17 + h.length) + 1 := by
    simp [jsTailText]
    omega
  have hhead : (h ++ ')' :: jsTailText).head? ≠ some '?' := by
    cases h with
    | nil => decide
    | cons c h =>
      intro e
      simp only [List.cons_append, List.head?_cons, Option.some.injEq] at e
      exact hh c (List.mem_cons_self _ _) (by rw [e]; decide)
  rw [hlen, List.cons_append, parseLoop_open _ _ _ _ _ hhead, parseLoop_host 17 _ _ h _ hh]
  simp only [List.append_nil]
  rw [parseLoop_jsTail, List.reverse_reverse]
  rfl

end Regex
/-! ## The language of the patterns of `markUrlsToCheck` -/

theorem Lang_charRe_length {c : Char} {u : List Char} (h : Lang (charRe c) u) :
    u.length = 1 := by
  unfold charRe at h
  split at h
  · obtain ⟨d, rfl, _⟩ := Lang_cls_inv h
    rfl
  · obtain ⟨d, rfl, _⟩ := Lang_cls_inv h
    rfl

theorem Lang_charRe_self (c : Char) : Lang (charRe c) [c] := by
  unfold charRe
  split
  · rename_i hc
    subst hc
    exact Lang.cls (by decide)
  · exact Lang.cls ((inClass_lit c c).mpr rfl)

theorem Lang_hostRe_length : ∀ (h g : List Char), Lang (hostRe h) g → g.length = h.length := by
  intro h
  unfold hostRe
  induction h with
  | nil =>
    intro g hg
    rw [Lang_empty_inv hg]
  | cons c h ih =>
    intro g hg
    rw [List.map_cons, Lang_concatOf_cons] at hg
    obtain ⟨u, v, rfl, hu, hv⟩ := hg
    rw [List.length_append, Lang_charRe_length hu, ih v hv, List.length_cons]
    omega

theorem Lang_hostRe_self : ∀ h : List Char, Lang (hostRe h) h := by
  intro h
  unfold hostRe
  induction h with
  | nil => exact Lang.empty
  | cons c h ih =>
    rw [List.map_cons, Lang_concatOf_cons]
    exact ⟨[c], h, rfl, Lang_charRe_self c, ih⟩

theorem anchorFree_hostRe (h : List Char) : anchorFree (hostRe h) = true := by
  apply anchorFree_concatOf
  intro r hr
  simp only [List.mem_map] at hr
  obtain ⟨c, _, rfl⟩ := hr
  unfold charRe
  split <;> rfl

theorem jsTail_eq :
    jsTail = cat (star dot) (cat (lit '.') (cat (lit 'j') (cat (lit 's') (opt (lit '?'))))) :=
  rfl

theorem jsRegex_eq :
    jsRegex = cat (alt (str "cloudflare".toList) (str "cloudfront".toList)) jsTail := rfl

/-- A word of the compiled `.*\.js(\?){0,1}` holds `.js`. -/
theorem Lang_jsTail_sound {w : List Char} (h : Lang jsTail w) :
    ∃ mid q, w = mid ++ (".js".toList ++ q) := by
  rw [jsTail_eq] at h
  obtain ⟨mid, v, rfl, _, hv⟩ := Lang_cat_inv h
  obtain ⟨d1, v, rfl, h1, hv⟩ := Lang_cat_inv hv
  obtain ⟨d2, v, rfl, h2, hv⟩ := Lang_cat_inv hv
  obtain ⟨d3, q, rfl, h3, _⟩ := Lang_cat_inv hv
  obtain ⟨c1, rfl, k1⟩ := Lang_cls_inv h1
  obtain ⟨c2, rfl, k2⟩ := Lang_cls_inv h2
  obtain ⟨c3, rfl, k3⟩ := Lang_cls_inv h3
  rw [(inClass_lit _ _).mp k1, (inClass_lit _ _).mp k2, (inClass_lit _ _).mp k3]
  exact ⟨mid, q, rfl⟩

/-- Any text without a line feed, followed by `.js`, is a word of the compiled
`.*\.js(\?){0,1}`. -/
theorem Lang_jsTail_complete (mid : List Char) (hmid : ∀ c ∈ mid, c ≠ Char.ofNat 10) :
    Lang jsTail (mid ++ ".js".toList) := by
  rw [jsTail_eq]
  apply Lang.cat
  · apply Lang_star_cls_of_all
    intro c hc
    have := hmid c hc
    simp only [inClass, List.any_cons, List.any_nil, Bool.or_false, Bool.true_bne,
      Bool.not_eq_true', Bool.and_eq_false_iff, decide_eq_false_iff_not, Nat.not_le]
    by_contra hcon
    apply this
    apply Char.ext
    apply UInt32.ext
    have e1 : c.val.toNat = c.toNat := rfl
    have e2 : (Char.ofNat 10).val.toNat = (Char.ofNat 10).toNat := rfl
    omega
  · have e : ".js".toList = ['.'] ++ (['j'] ++ (['s'] ++ [])) := rfl
    rw [e]
    exact Lang.cat (Lang.cls (by decide))
      (Lang.cat (Lang.cls (by decide)) (Lang.cat (Lang.cls (by decide)) (Lang.altR Lang.empty)))

theorem anchorFree_jsTail : anchorFree jsTail = true := by decide

/-- A pattern that ends in `.*\.js(\?){0,1}` matches somewhere in a text only
if a word of its first part is followed later by `.js`. -/
theorem MatchString_jsTail_sound (g0 : Regex) (hg0 : anchorFree g0 = true) (s : List Char)
    (h : MatchString (cat g0 jsTail) s = true) :
    ∃ a g r, s = a ++ (g ++ r) ∧ Lang g0 g ∧ hasInfix ".js".toList r = true := by
  rw [MatchString_iff _ (by simp [anchorFree, hg0, anchorFree_jsTail])] at h
  obtain ⟨a, w, b, hs, hl⟩ := h
  obtain ⟨g, t, rfl, hg, ht⟩ := Lang_cat_inv hl
  obtain ⟨mid, q, rfl⟩ := Lang_jsTail_sound ht
  refine ⟨a, g, mid ++ (".js".toList ++ q) ++ b, by rw [hs]; simp, hg, ?_⟩
  rw [hasInfix_iff]
  exact ⟨mid, q ++ b, by simp⟩

/-- In a text without a line feed, the converse holds too. -/
theorem MatchString_jsTail_complete (g0 : Regex) (hg0 : anchorFree g0 = true)
    (a g r : List Char) (hnl : ∀ c ∈ r, c ≠ Char.ofNat 10) (hg : Lang g0 g)
    (hr : hasInfix ".js".toList r = true) :
    MatchString (cat g0 jsTail) (a ++ (g ++ r)) = true := by
  rw [MatchString_iff _ (by simp [anchorFree, hg0, anchorFree_jsTail])]
  rw [hasInfix_iff] at hr
  obtain ⟨x, y, rfl⟩ := hr
  refine ⟨a, g ++ (x ++ ".js".toList), y, by simp, ?_⟩
  apply Lang.cat hg
  apply Lang_jsTail_complete
  intro c hc
  exact hnl c (by simp [hc])

theorem Lang_cdn (g : List Char) :
    Lang (alt (str "cloudflare".toList) (str "cloudfront".toList)) g ↔
      g = "cloudflare".toList ∨ g = "cloudfront".toList := by
  constructor
  · intro h
    rcases Lang_alt_inv h with h | h
    · exact Or.inl ((Lang_str _ _).mp h)
    · exact Or.inr ((Lang_str _ _).mp h)
  · rintro (rfl | rfl)
    · exact Lang.altL ((Lang_str _ _).mpr rfl)
    · exact Lang.altR ((Lang_str _ _).mpr rfl)

/-- The CDN test on a text without a line feed. -/
theorem jsRegex_MatchString (url : List Char) (hnl : ∀ c ∈ url, c ≠ Char.ofNat 10) :
    jsRegex.MatchString url =
      (containsThen "cloudflare".toList ".js".toList url ||
        containsThen "cloudfront".toList ".js".toList url) := by
  have haf : anchorFree (alt (str "cloudflare".toList) (str "cloudfront".toList)) = true := by
    decide
  rw [Bool.eq_iff_iff, Bool.or_eq_true, containsThen_iff, containsThen_iff, jsRegex_eq]
  constructor
  · intro h
    obtain ⟨a, g, r, hs, hg, hr⟩ := MatchString_jsTail_sound _ haf url h
    rcases (Lang_cdn g).mp hg with rfl | rfl
    · exact Or.inl ⟨a, r, hs, hr⟩
    · exact Or.inr ⟨a, r, hs, hr⟩
  · rintro (⟨a, r, hs, hr⟩ | ⟨a, r, hs, hr⟩)
    · rw [hs]
      apply MatchString_jsTail_complete _ haf a _ r _ ((Lang_cdn _).mpr (Or.inl rfl)) hr
      intro c hc
      exact hnl c (by rw [hs]; simp [hc])
    · rw [hs]
      apply MatchString_jsTail_complete _ haf a _ r _ ((Lang_cdn _).mpr (Or.inr rfl)) hr
      intro c hc
      exact hnl c (by rw [hs]; simp [hc])

/-- The test built of the hostname of a record, on a URL that begins with the
hostname. -/
theorem hostname_MatchPattern (h rest : List Char) (hh : ∀ c ∈ h, c ∉ metaChars)
    (hnl : ∀ c ∈ h ++ rest, c ≠ Char.ofNat 10) :
    MatchPattern ('(' :: h ++ ')' :: jsTailText) (h ++ rest) =
      hasInfix ".js".toList ((h ++ rest).drop h.length) := by
  unfold MatchPattern
  rw [Compile_hostname h hh, List.drop_left, Bool.eq_iff_iff]
  constructor
  · intro hm
    obtain ⟨a, g, r, hs, hg, hr⟩ := MatchString_jsTail_sound _ (anchorFree_hostRe h) _ hm
    have hlen := Lang_hostRe_length h g hg
    rw [hasInfix_iff] at hr ⊢
    obtain ⟨x, y, rfl⟩ := hr
    have hd : rest = (h ++ rest).drop h.length := by rw [List.drop_left]
    rw [hd, hs]
    have e : a ++ (g ++ (x ++ (".js".toList ++ y))) = (a ++ g ++ x) ++ (".js".toList ++ y) := by
      simp
    rw [e, List.drop_append_of_le_length (by simp; omega)]
    exact ⟨_, y, rfl⟩
  · intro hr
    have := MatchString_jsTail_complete _ (anchorFree_hostRe h) [] h rest
      (fun c hc => hnl c (by simp [hc])) (Lang_hostRe_self h) hr
    simpa using this

/-- The hostname of a record made by extraction compiles, read as a pattern,
to itself with its dots as wildcards, and the condition of `markUrlsToCheck`
on the record is the one on the texts of its URL and hostname. -/
theorem followFlag_of_record (TLDS : List Char → Bool) (line : List Char) (u : DiscoveredUrl)
    (hu : u ∈ (urlRegex.FindAllString line).filterMap (recordOf TLDS)) :
    followFlag u.url u.hostname = ownHostFollow u.url u.hostname ∧
      Compile ('(' :: u.hostname ++ ')' :: jsTailText) = some (cat (hostRe u.hostname) jsTail) := by
  simp only [List.mem_filterMap] at hu
  obtain ⟨x, hx, hrec⟩ := hu
  obtain ⟨e, he⟩ := FindAllString_mem urlRegex line x hx
  obtain ⟨m, rest, _, _, hurl, hh, hl⟩ := recordOf_parts TLDS _ x e u he hrec
  have hnl : ∀ c ∈ u.url, c ≠ Char.ofNat 10 := by
    intro c hc
    exact Lang_excludes (Char.ofNat 10) hl (by decide) c (List.mem_cons_of_mem _ hc)
  have hmeta : ∀ c ∈ u.hostname, c ∉ metaChars := by
    intro c hc hmem
    have hx : classesExclude c hostnameGrammar = true := by
      revert hmem
      simp only [metaChars, List.mem_cons, List.mem_singleton, List.mem_nil_iff, or_false]
      rintro (rfl | rfl | rfl | rfl | rfl | rfl | rfl | rfl | rfl | rfl | rfl) <;> decide
    exact Lang_excludes c hh hx c hc rfl
  refine ⟨?_, Compile_hostname _ hmeta⟩
  unfold followFlag ownHostFollow
  rw [jsRegex_MatchString _ hnl]
  congr 1
  rw [hurl] at hnl ⊢
  exact hostname_MatchPattern _ _ hmeta hnl

/-- On the records made by extraction, the pass of `markUrlsToCheck` over a
list writes the flag of the specification. -/
theorem map_markFollow_of_records (TLDS : List Char → Bool) (lines : List (List Char)) :
    ∀ (l : List DiscoveredUrl),
      (∀ u ∈ l, ∃ line ∈ lines, u ∈ (urlRegex.FindAllString line).filterMap (recordOf TLDS)) →
      l.map markFollow = l.map (fun u => { u with follow := ownHostFollow u.url u.hostname }) := by
  intro l hl
  apply List.map_congr_left
  intro u hu
  obtain ⟨line, _, hline⟩ := hl u hu
  rw [markFollow_eq, (followFlag_of_record TLDS line u hline).1]

/-- C20: for every record that `extractHostnamesIps` appends and every
`rootHostname` of the session, `markUrlsToCheck` on the session returned
writes `follow = true` on the record exactly when its `url` contains
`cloudflare` or `cloudfront` followed later by `.js`, or the part of the `url`
after the hostname of the record contains `.js`, and leaves the other fields
alone: the records of the session after the pass are those held before, as
the pass marks them, and then the appended records with this flag. The second
test is compiled from the hostname of the record itself, read as a pattern in
which the dots are wildcards; `rootHostname` is not read, so the records are
marked alike for every value of it. The same holds of the session that the
read loop builds of the chunks of a page from `newScraper`: it returns, for
every `rootHostname`, and after `markUrlsToCheck` its records are the records
extracted of the chunks, each with this flag. -/
theorem follow_of_extracted_records (TLDS : List Char → Bool) (scraper : Scraper)
    (line : List Char) :
    ∃ scraper1 added, extractHostnamesIps TLDS scraper line = some scraper1 ∧
      scraper1.discoveredUrls = scraper.discoveredUrls ++ added ∧
      (markUrlsToCheck scraper1).discoveredUrls =
        (markUrlsToCheck scraper).discoveredUrls ++
          added.map (fun u => { u with follow := ownHostFollow u.url u.hostname }) ∧
      (∀ u ∈ added,
        (∃ v ∈ (markUrlsToCheck scraper1).discoveredUrls,
          v = { u with follow := ownHostFollow u.url u.hostname }) ∧
        (markFollow u).follow =
          (containsThen "cloudflare".toList ".js".toList u.url ||
            containsThen "cloudfront".toList ".js".toList u.url ||
            hasInfix ".js".toList (u.url.drop u.hostname.length)) ∧
        Compile ('(' :: u.hostname ++ ')' :: jsTailText) = some (cat (hostRe u.hostname) jsTail)) ∧
      (∀ (s : Scraper) (rootHostname : List Char),
        (markUrlsToCheck { s with rootHostname := rootHostname }).discoveredUrls =
          (markUrlsToCheck s).discoveredUrls) ∧
      ∀ (chunks : List (List Char)) (rootHostname localFilename : List Char),
        ∃ session, scanChunks TLDS chunks (newScraper rootHostname localFilename) = some session ∧
          session.discoveredUrls =
            chunks.flatMap (fun c => (urlRegex.FindAllString c).filterMap (recordOf TLDS)) ∧
          (markUrlsToCheck session).discoveredUrls =
            session.discoveredUrls.map
              (fun u => { u with follow := ownHostFollow u.url u.hostname }) := by
  have hmap := map_markFollow_of_records TLDS [line]
    ((urlRegex.FindAllString line).filterMap (recordOf TLDS))
    (fun u hu => ⟨line, List.mem_singleton.mpr rfl, hu⟩)
  refine ⟨_, _, extractHostnamesIps_eq TLDS scraper line, rfl, ?_, ?_, fun _ _ => rfl, ?_⟩
  · show (scraper.discoveredUrls ++ _).map markFollow = scraper.discoveredUrls.map markFollow ++ _
    rw [List.map_append, hmap]
  · intro u hu
    have h := followFlag_of_record TLDS line u hu
    refine ⟨⟨_, ?_, rfl⟩, ?_, h.2⟩
    · show _ ∈ (scraper.discoveredUrls ++ _).map markFollow
      rw [List.map_append, hmap]
      exact List.mem_append_right _ (List.mem_map_of_mem _ hu)
    · rw [markFollow_eq]
      exact h.1
  · intro chunks rootHostname localFilename
    refine ⟨_, scanChunks_eq TLDS chunks _, ?_, ?_⟩
    · show [] ++ _ = _
      rfl
    · show ([] ++ _).map markFollow = ([] ++ _).map _
      apply map_markFollow_of_records TLDS chunks
      intro u hu
      simp only [List.nil_append, List.mem_flatMap] at hu
      exact hu

end GoScraper
